import Mathlib

/-!
# wecom: secure message channel

A shallow embedding of the Go package `wecom` (files `utils.go`, `server.go`,
`accesstoken.go`, `type.go`, `context.go`) and theorems about its envelope codec,
signature computation, channel handshake, credential cache, replies and chunked sending.

Conventions of the embedding.

* A Go `string` and a Go `[]byte` value are lists of bytes (`List Nat`, every entry below 256
  where `IsBytes` is assumed).
* A Go call can return normally, return an error value, or panic; `Res` keeps the three apart.
* A Go slice is a window on a backing array: `Slice` keeps the array from the start of the
  window to its capacity, together with the length of the window.
* The standard library primitives the package calls (SHA-1, the AES block function) are
  fields of `Crypto`; random draws and wall-clock readings are explicit arguments.
* A text is the UTF-8 encoding of a list of Unicode scalar values; the conversions
  `[]rune(s)` and `string(rs)` are `stringToRunes` and `runesToString`.
* The outcomes of the grant requests and of the POSTs to the send endpoint are oracles
  (`World`, `Outside`), indexed by the number of requests made so far.
-/

namespace Wecom

/-! ## Results of Go calls -/

/-- Outcome of a Go call: a returned value, a returned error value, or a run-time panic. -/
inductive Res (α : Type) where
  | ok (v : α)
  | err (e : String)
  | panicked (why : String)
  deriving DecidableEq, Repr

/-! ## Bytes and strings -/

/-- Every entry of the list is a byte. -/
def IsBytes (l : List Nat) : Prop := ∀ x ∈ l, x < 256

instance (l : List Nat) : Decidable (IsBytes l) := by
  unfold IsBytes; infer_instance

/-- The bytes of an ASCII string literal. -/
def ascii (s : String) : List Nat := s.toList.map Char.toNat

/-! ## encoding/base64, StdEncoding -/

/-- The character of the standard base64 alphabet with index `i` (`i < 64`). -/
def b64Char (i : Nat) : Nat :=
  if i < 26 then 65 + i
  else if i < 52 then 71 + i
  else if i < 62 then i - 4
  else if i = 62 then 43
  else 47

/-- The index of a character in the standard base64 alphabet, if it belongs to it. -/
def b64Val (c : Nat) : Option Nat :=
  if 65 ≤ c ∧ c ≤ 90 then some (c - 65)
  else if 97 ≤ c ∧ c ≤ 122 then some (c - 71)
  else if 48 ≤ c ∧ c ≤ 57 then some (c + 4)
  else if c = 43 then some 62
  else if c = 47 then some 63
  else none

/-- Model of `base64.StdEncoding.EncodeToString`: three bytes become four characters and the
last group is padded with `=` (61). -/
def base64Encode : List Nat → List Nat
  | a :: b :: c :: rest =>
    b64Char (a / 4) :: b64Char (a % 4 * 16 + b / 16) :: b64Char (b % 16 * 4 + c / 64)
      :: b64Char (c % 64) :: base64Encode rest
  | [a, b] => [b64Char (a / 4), b64Char (a % 4 * 16 + b / 16), b64Char (b % 16 * 4), 61]
  | [a] => [b64Char (a / 4), b64Char (a % 4 * 16), 61, 61]
  | [] => []

/-- Decoding of the base64 quanta of an input without line breaks: groups of four alphabet
characters, the last of which may end in one or two `=`; anything else is corrupt input. -/
def base64DecodeQuanta : List Nat → Option (List Nat)
  | [] => some []
  | a :: b :: c :: d :: rest =>
    if rest = [] ∧ d = 61 then
      if c = 61 then
        match b64Val a, b64Val b with
        | some x, some y => some [x * 4 + y / 16]
        | _, _ => none
      else
        match b64Val a, b64Val b, b64Val c with
        | some x, some y, some z => some [x * 4 + y / 16, y % 16 * 16 + z / 4]
        | _, _, _ => none
    else
      match b64Val a, b64Val b, b64Val c, b64Val d, base64DecodeQuanta rest with
      | some x, some y, some z, some w, some t =>
        some ((x * 4 + y / 16) :: (y % 16 * 16 + z / 4) :: (z % 4 * 64 + w) :: t)
      | _, _, _, _, _ => none
  | _ => none

/-- Model of `base64.StdEncoding.DecodeString`: carriage returns and line feeds are skipped,
then the quanta are decoded; `none` stands for a `CorruptInputError`. -/
def base64Decode (s : List Nat) : Option (List Nat) :=
  base64DecodeQuanta (s.filter (fun c => c != 10 && c != 13))

/-! ## Standard library primitives -/

/-- The functions of `crypto/sha1` and `crypto/aes` the package relies on: the SHA-1 digest
of a message, and the AES block encryption and decryption of one block under a key. -/
structure Crypto where
  sha1 : List Nat → List Nat
  aesEncryptBlock : List Nat → List Nat → List Nat
  aesDecryptBlock : List Nat → List Nat → List Nat

/-- A cipher block: `aes.BlockSize = 16` bytes. -/
def IsBlock (b : List Nat) : Prop := b.length = 16 ∧ IsBytes b

/-- The key sizes `aes.NewCipher` accepts (AES-128, AES-192, AES-256). -/
def validKeySize (k : Nat) : Bool := k == 16 || k == 24 || k == 32

/-- The block cipher is a keyed permutation of the 16-byte blocks: under every key that
`aes.NewCipher` accepts, encryption maps blocks to blocks and decryption undoes it. -/
structure Crypto.Lawful (P : Crypto) : Prop where
  encrypt_block : ∀ key b, validKeySize key.length = true → IsBlock b →
    IsBlock (P.aesEncryptBlock key b)
  decrypt_block : ∀ key b, validKeySize key.length = true → IsBlock b →
    IsBlock (P.aesDecryptBlock key b)
  decrypt_encrypt : ∀ key b, validKeySize key.length = true → IsBlock b →
    P.aesDecryptBlock key (P.aesEncryptBlock key b) = b

/-- Byte-wise exclusive or of two blocks. -/
def xorBytes (a b : List Nat) : List Nat := List.zipWith (fun x y => x ^^^ y) a b

/-- Model of `cipher.NewCBCEncrypter(block, iv).CryptBlocks` on `n` blocks: every plaintext
block is xored with the previous ciphertext block (the IV for the first) and encrypted. -/
def cbcEncryptBlocks (P : Crypto) (key : List Nat) : Nat → List Nat → List Nat → List Nat
  | 0, _, _ => []
  | n + 1, iv, src =>
    let ct := P.aesEncryptBlock key (xorBytes (src.take 16) iv)
    ct ++ cbcEncryptBlocks P key n ct (src.drop 16)

/-- Model of `cipher.NewCBCDecrypter(block, iv).CryptBlocks` on `n` blocks: every ciphertext
block is decrypted and xored with the previous ciphertext block (the IV for the first). -/
def cbcDecryptBlocks (P : Crypto) (key : List Nat) : Nat → List Nat → List Nat → List Nat
  | 0, _, _ => []
  | n + 1, iv, src =>
    xorBytes (P.aesDecryptBlock key (src.take 16)) iv
      ++ cbcDecryptBlocks P key n (src.take 16) (src.drop 16)

/-! ## Slices -/

/-- A Go byte slice: `arr` is the backing array from the first element of the slice up to its
capacity, `len` the length of the slice (`len ≤ arr.length = cap`). -/
structure Slice where
  arr : List Nat
  len : Nat
  deriving DecidableEq, Repr

/-- The elements of the slice. -/
def Slice.bytes (s : Slice) : List Nat := s.arr.take s.len

/-- The capacity of the slice. -/
def Slice.cap (s : Slice) : Nat := s.arr.length

/-! ## utils.go -/

/-- Model of `pkcs7UnPad`: `msg[length-1]` panics on an empty slice, `msg[:length-padlen]`
panics when `padlen` exceeds `length`; the result shares the backing array of `msg`. -/
def pkcs7UnPad (msg : Slice) : Res Slice :=
  let length := msg.len
  if length = 0 then .panicked "index out of range [-1]"
  else
    let padlen := msg.arr.getD (length - 1) 0
    if length < padlen then .panicked "slice bounds out of range"
    else .ok ⟨msg.arr, length - padlen⟩

/-- Model of `aesDecrypt`. `iv` is the outcome of `io.ReadFull(rand.Reader, iv)`: the 16 bytes
drawn, or `none` when the reader fails. `dst` has the length of `src`, and `CryptBlocks`
panics unless that length is a multiple of the block size. -/
def aesDecrypt (P : Crypto) (iv : Option (List Nat)) (src key : List Nat) : Res Slice :=
  if validKeySize key.length = false then .err "crypto/aes: invalid key size"
  else
    match iv with
    | none => .err "rand: read failed"
    | some v =>
      if src.length % 16 ≠ 0 then .panicked "crypto/cipher: input not full blocks"
      else pkcs7UnPad ⟨cbcDecryptBlocks P key (src.length / 16) v src, src.length⟩

/-- Model of `pkcs7Pad`: panics on a block size outside `[2, 255]`, otherwise appends
`padlen = blockSize - len(msg) % blockSize` bytes of value `byte(padlen)`. -/
def pkcs7Pad (msg : List Nat) (blockSize : Nat) : Res (List Nat) :=
  if blockSize < 2 ∨ blockSize ≥ 256 then .panicked "unsupported block size"
  else
    let padlen := blockSize - msg.length % blockSize
    .ok (msg ++ List.replicate padlen (padlen % 256))

/-- Model of `aesEncrypt`: the plaintext is padded to a multiple of `len(key)`, then the
cipher is created, the IV drawn and the padded plaintext encrypted in CBC mode;
`CryptBlocks` panics unless the padded length is a multiple of the block size 16. -/
def aesEncrypt (P : Crypto) (iv : Option (List Nat)) (src key : List Nat) : Res (List Nat) :=
  match pkcs7Pad src key.length with
  | .panicked why => .panicked why
  | .err e => .err e
  | .ok padded =>
    if validKeySize key.length = false then .err "crypto/aes: invalid key size"
    else
      match iv with
      | none => .err "rand: read failed"
      | some v =>
        if padded.length % 16 ≠ 0 then .panicked "crypto/cipher: input not full blocks"
        else .ok (cbcEncryptBlocks P key (padded.length / 16) v padded)

/-- Go's `<=` on strings: byte-wise lexicographic order. -/
def strLe : List Nat → List Nat → Bool
  | [], _ => true
  | _ :: _, [] => false
  | x :: xs, y :: ys => if x < y then true else if y < x then false else strLe xs ys

/-- Model of `sort.Strings`: the strings in increasing order. -/
def sortStrings (s : List (List Nat)) : List (List Nat) :=
  s.insertionSort (fun a b => strLe a b = true)

/-- A lowercase hexadecimal digit. -/
def hexDigit (n : Nat) : Nat := if n < 10 then 48 + n else 87 + n

/-- Model of `fmt.Sprintf("%x", b)` on a byte slice: two lowercase hex digits per byte. -/
def hexString (b : List Nat) : List Nat :=
  b.flatMap (fun x => [hexDigit (x / 16), hexDigit (x % 16)])

/-- Model of `sortSha1`: sort the strings, join them without separator, hash, render in hex. -/
def sortSha1 (P : Crypto) (s : List (List Nat)) : List Nat :=
  hexString (P.sha1 (sortStrings s).flatten)

/-- Model of `getRandomString`: `l` characters of `0-9a-z`, the `i`-th chosen by the `i`-th
draw `r.Intn(36)` of the generator. -/
def getRandomString (intn : Nat → Nat) (l : Nat) : List Nat :=
  (List.range l).map
    (fun i => (ascii "0123456789abcdefghijklmnopqrstuvwxyz").getD (intn i % 36) 0)

/-! ## server.go: the envelope codec -/

/-- The fields of `server` used by the handshake and the envelope codec. -/
structure server where
  appId : List Nat
  token : List Nat
  aesKey : List Nat
  safeMode : Bool
  entMode : Bool
  dataFormat : List Nat
  agentId : Int := 0
  safe : Int := 0
  deriving DecidableEq, Repr

/-- The four bytes `binary.Write(buf, binary.BigEndian, int32(n))` produces. -/
def int32Bytes (n : Nat) : List Nat :=
  [n / 2 ^ 24 % 256, n / 2 ^ 16 % 256, n / 2 ^ 8 % 256, n % 256]

/-- The `int32` that `binary.Read(bytes.NewBuffer(b), binary.BigEndian, &msgLen)` stores in
`msgLen`; with fewer than four bytes the read fails and `msgLen` keeps its zero value. -/
def readInt32 : List Nat → Int
  | [a, b, c, d] =>
    let u : Nat := a * 2 ^ 24 + b * 2 ^ 16 + c * 2 ^ 8 + d
    if u < 2 ^ 31 then (u : Int) else (u : Int) - 2 ^ 32
  | _ => 0

/-- The 4-byte big-endian length field of a decrypted buffer, `buf[16:20]` read as `int32`. -/
def frameLength (buf : Slice) : Int := readInt32 ((buf.arr.drop 16).take 4)

/-- The part of `decryptMsg` that follows `aesDecrypt`: `buf[16:20]` is bounded by the
capacity of `buf`, `buf[20+msgLen:]` by its length. -/
def decryptMsgFrame (appId : List Nat) (buf : Slice) : Res (List Nat) :=
  if buf.cap < 20 then .panicked "slice bounds out of range [:20]"
  else
    let msgLen := frameLength buf
    if msgLen < 0 ∨ msgLen > 1000000 then .err "AesKey is invalid"
    else if buf.len < 20 + msgLen.toNat then .panicked "slice bounds out of range"
    else if buf.bytes.drop (20 + msgLen.toNat) ≠ appId then .err "AppId is invalid"
    else .ok ((buf.arr.take (20 + msgLen.toNat)).drop 20)

/-- Model of `decryptMsg`: base64-decode, `aesDecrypt`, then check the frame. -/
def decryptMsg (P : Crypto) (s : server) (iv : Option (List Nat)) (msg : List Nat) :
    Res (List Nat) :=
  match base64Decode msg with
  | none => .err "illegal base64 data"
  | some aesMsg =>
    match aesDecrypt P iv aesMsg s.aesKey with
    | .err e => .err e
    | .panicked why => .panicked why
    | .ok buf => decryptMsgFrame s.appId buf

/-- Model of `wxRespEnc`, the encrypted reply. -/
structure wxRespEnc where
  Encrypt : List Nat
  MsgSignature : List Nat
  TimeStamp : List Nat
  Nonce : List Nat
  deriving DecidableEq, Repr

/-- Model of `encryptMsg`. `intn` are the draws of `getRandomString`, `iv` the outcome of
the IV draw in `aesEncrypt`. An error of `aesEncrypt` is discarded (`ae, _ :=`), leaving
`ae` nil; a panic propagates. -/
def encryptMsg (P : Crypto) (s : server) (intn : Nat → Nat) (iv : Option (List Nat))
    (msg timeStamp nonce : List Nat) : Res wxRespEnc :=
  let l := int32Bytes msg.length
  let rd := getRandomString intn 16
  let plain := rd ++ l ++ msg ++ s.appId
  match aesEncrypt P iv plain s.aesKey with
  | .panicked why => .panicked why
  | r =>
    let ae := match r with
      | .ok x => x
      | _ => []
    let encMsg := base64Encode ae
    .ok
      { Encrypt := encMsg
        MsgSignature := sortSha1 P [s.token, timeStamp, nonce, encMsg]
        TimeStamp := timeStamp
        Nonce := nonce }

/-! ## server.go: the handshake -/

/-- Model of `WxMsg`, the message handed to the business logic. -/
structure WxMsg where
  ToUserName : List Nat
  FromUserName : List Nat
  CreateTime : Int
  MsgId : Int
  MsgType : List Nat
  Content : List Nat
  AgentID : Int
  deriving DecidableEq, Repr

/-- Model of `WxMsgEnc`, the encrypted inbound message. -/
structure WxMsgEnc where
  ToUserName : List Nat
  AgentID : Int
  Encrypt : List Nat
  AgentType : List Nat
  deriving DecidableEq, Repr

/-- The value `new(WxMsg)` points to. -/
def WxMsg.zero : WxMsg := ⟨[], [], 0, 0, [], [], 0⟩

/-- The value `new(WxMsgEnc)` points to. -/
def WxMsgEnc.zero : WxMsgEnc := ⟨[], 0, [], []⟩

/-- The decoders of `encoding/xml` and `encoding/json` the package calls: each takes the
input and the value to fill and returns the value after decoding, with `true` when the
decoder reported an error. -/
structure Decoders where
  xmlMsg : List Nat → WxMsg → WxMsg × Bool
  jsonMsg : List Nat → WxMsg → WxMsg × Bool
  xmlEnc : List Nat → WxMsgEnc → WxMsgEnc × Bool
  jsonEnc : List Nat → WxMsgEnc → WxMsgEnc × Bool

/-- The parts of an `http.Request` the handshake reads: the method, the form values behind
`r.FormValue` and the body. -/
structure Request where
  Method : List Nat
  form : List (List Nat × List Nat)
  Body : List Nat
  deriving DecidableEq, Repr

/-- Model of `r.FormValue(key)`: the first value of the key, or the empty string. -/
def Request.FormValue (r : Request) (key : List Nat) : List Nat :=
  (r.form.lookup key).getD []

/-- Model of `decodeMsgFromRequest` and `decodeMsgFromString` for a `WxMsg`: the decoder is
chosen by `dataFormat`, and any other format panics. -/
def decodeMsg (D : Decoders) (s : server) (input : List Nat) (msg : WxMsg) :
    Res (WxMsg × Bool) :=
  if s.dataFormat = ascii "XML" then .ok (D.xmlMsg input msg)
  else if s.dataFormat = ascii "JSON" then .ok (D.jsonMsg input msg)
  else .panicked "invalid DataFormat"

/-- Model of `decodeMsgFromRequest` for a `WxMsgEnc`. -/
def decodeMsgEnc (D : Decoders) (s : server) (input : List Nat) (msg : WxMsgEnc) :
    Res (WxMsgEnc × Bool) :=
  if s.dataFormat = ascii "XML" then .ok (D.xmlEnc input msg)
  else if s.dataFormat = ascii "JSON" then .ok (D.jsonEnc input msg)
  else .panicked "invalid DataFormat"

/-- The fields of `context` that `VerifyURL` sets. -/
structure context where
  timestamp : List Nat
  nonce : List Nat
  Msg : WxMsg
  hasReply : Bool
  deriving DecidableEq, Repr

/-- What a call of `VerifyURL` leaves behind: the returned pointer (`none` for nil), the
byte strings written to the response writer, and whether `decryptMsg` was called. -/
structure VerifyResult where
  ctx : Option context
  written : List (List Nat)
  decrypted : Bool
  deriving DecidableEq, Repr

/-- The signature test of `VerifyURL`: `true` when the request is refused. -/
def signatureMismatch (P : Crypto) (s : server) (signature timestamp nonce echostr : List Nat) :
    Bool :=
  s.entMode && signature != sortSha1 P [s.token, timestamp, nonce, echostr]

/-- The signature `VerifyURL` compares: the form value `signature`, or `msg_signature` when
that one is empty. -/
def Request.signature (r : Request) : List Nat :=
  if r.FormValue (ascii "signature") = [] then r.FormValue (ascii "msg_signature")
  else r.FormValue (ascii "signature")

/-- The head of `VerifyURL`, up to the signature test: the context and the string the
signature covers. In plaintext mode a POST body is decoded into `ctx.Msg` before the
signature is looked at; in safe mode the POST body is decoded into a `WxMsgEnc` whose
`Encrypt` field replaces the form value `echostr`; decoder errors are only logged. -/
def VerifyURL.read (D : Decoders) (s : server) (r : Request) : Res (context × List Nat) :=
  let ctx : context :=
    { timestamp := r.FormValue (ascii "timestamp")
      nonce := r.FormValue (ascii "nonce")
      Msg := WxMsg.zero
      hasReply := false }
  if !s.safeMode && r.Method == ascii "POST" then
    match decodeMsg D s r.Body ctx.Msg with
    | .ok (m, _) => .ok ({ ctx with Msg := m }, r.FormValue (ascii "echostr"))
    | .err e => .err e
    | .panicked why => .panicked why
  else if s.safeMode && r.Method == ascii "POST" then
    match decodeMsgEnc D s r.Body WxMsgEnc.zero with
    | .ok (msgEnc, _) => .ok (ctx, msgEnc.Encrypt)
    | .err e => .err e
    | .panicked why => .panicked why
  else .ok (ctx, r.FormValue (ascii "echostr"))

/-- The tail of `VerifyURL`, from the signature test on. The named result `ctx` is already
assigned, so every bare `return` hands that pointer back. -/
def VerifyURL.check (P : Crypto) (D : Decoders) (s : server) (iv : Option (List Nat))
    (r : Request) (ctx : context) (echostr : List Nat) : Res VerifyResult :=
  if signatureMismatch P s r.signature ctx.timestamp ctx.nonce echostr then
    .ok ⟨some ctx, [], false⟩
  else if s.entMode || (s.safeMode && r.Method == ascii "POST") then
    match decryptMsg P s iv echostr with
    | .panicked why => .panicked why
    | .err _ => .ok ⟨some ctx, [], true⟩
    | .ok plain =>
      if r.Method = ascii "GET" then .ok ⟨some ctx, [plain], true⟩
      else if s.safeMode then
        match decodeMsg D s plain ctx.Msg with
        | .ok (m, _) => .ok ⟨some { ctx with Msg := m }, [], true⟩
        | .err e => .err e
        | .panicked why => .panicked why
      else .ok ⟨some ctx, [], true⟩
  else if r.Method = ascii "GET" then .ok ⟨some ctx, [echostr], false⟩
  else if s.safeMode then
    match decodeMsg D s echostr ctx.Msg with
    | .ok (m, _) => .ok ⟨some { ctx with Msg := m }, [], false⟩
    | .err e => .err e
    | .panicked why => .panicked why
  else .ok ⟨some ctx, [], false⟩

/-- Model of `VerifyURL`: read the request, then test the signature, decrypt and parse. -/
def VerifyURL (P : Crypto) (D : Decoders) (s : server) (iv : Option (List Nat)) (r : Request) :
    Res VerifyResult :=
  match VerifyURL.read D s r with
  | .ok (ctx, echostr) => VerifyURL.check P D s iv r ctx echostr
  | .err e => .err e
  | .panicked why => .panicked why

/-! ## type.go and accesstoken.go: the credential cache -/

/-- Model of `WxErr`. -/
structure WxErr where
  ErrCode : Int
  ErrMsg : List Nat
  deriving DecidableEq, Repr

/-- A Go `error` value of the credential cache: an error of the HTTP or JSON layer, or the
error built from an error code and message by `(*WxErr).Error`. -/
inductive GoErr where
  | http (e : String)
  | wx (code : Int) (msg : List Nat)
  deriving DecidableEq, Repr

/-- Model of `(*WxErr).Error`: an error exactly when `ErrCode` is not zero, else nil. -/
def WxErr.Error (w : WxErr) : Option GoErr :=
  if w.ErrCode ≠ 0 then some (.wx w.ErrCode w.ErrMsg) else none

/-- Model of `accessToken`: the token, `ExpiresIn` (the lifetime in the grant reply, the
expiry instant once stored) and the embedded `WxErr`. -/
structure accessToken extends WxErr where
  AccessToken : List Nat
  ExpiresIn : Int
  deriving DecidableEq, Repr

/-- The outcome of `getJson(url, at)`: an error of the request or of the JSON decoder, or
the decoded reply. -/
inductive GrantReply where
  | failed (e : String)
  | decoded (tok : accessToken)
  deriving DecidableEq, Repr

/-- The surroundings of the credential cache: the outcome of the `k`-th grant request and
the `k`-th reading of `time.Now().Unix()`, both counted from the start of the process. -/
structure World where
  grant : Nat → GrantReply
  clock : Nat → Int

/-- The credential cache and the counters of its interactions: the pointer `s.accessToken`
(`none` for nil), the grant requests issued, the clock readings taken and the one-second
sleeps done so far. -/
structure TokenState where
  accessToken : Option accessToken
  requests : Nat
  clockReads : Nat
  sleeps : Nat
  deriving DecidableEq, Repr

/-- Arithmetic of `int64`: the result wraps around. -/
def wrapInt64 (x : Int) : Int := (x + 2 ^ 63) % 2 ^ 64 - 2 ^ 63

/-- Model of `getAccessTokenFromNet`: one grant request; a reply with `ErrCode > 0` is
returned as `at.Error()`, any other reply is stored with
`ExpiresIn = now + ExpiresIn - 5`. -/
def getAccessTokenFromNet (W : World) (st : TokenState) : Option GoErr × TokenState :=
  match W.grant st.requests with
  | .failed e => (some (.http e), { st with requests := st.requests + 1 })
  | .decoded tok =>
    if tok.ErrCode > 0 then (tok.toWxErr.Error, { st with requests := st.requests + 1 })
    else
      (none,
        { st with
          accessToken :=
            some { tok with ExpiresIn := wrapInt64 (W.clock st.clockReads + tok.ExpiresIn - 5) }
          requests := st.requests + 1
          clockReads := st.clockReads + 1 })

/-- The loop `for range 3` of `getAccessToken` with `n` rounds left: stop at the first
request that returns no error, sleep one second after every failed one. -/
def getAccessToken.retry (W : World) : Nat → Option GoErr → TokenState → Option GoErr × TokenState
  | 0, err, st => (err, st)
  | n + 1, _, st =>
    match getAccessTokenFromNet W st with
    | (none, st1) => (none, st1)
    | (some e, st1) => getAccessToken.retry W n (some e) { st1 with sleeps := st1.sleeps + 1 }

/-- The refreshing branch of `getAccessToken`: up to three requests, the empty string if
the last one failed, else the stored token. -/
def getAccessToken.refresh (W : World) (st : TokenState) : Res (List Nat) × TokenState :=
  match getAccessToken.retry W 3 none st with
  | (some _, st1) => (.ok [], st1)
  | (none, st1) =>
    match st1.accessToken with
    | some tok => (.ok tok.AccessToken, st1)
    | none => (.panicked "nil pointer dereference", st1)

/-- Model of `getAccessToken` (the mutex is held for the whole call): refresh when there
is no credential or when `ExpiresIn < time.Now().Unix()`, else return the cached token. -/
def getAccessToken (W : World) (st : TokenState) : Res (List Nat) × TokenState :=
  match st.accessToken with
  | none => getAccessToken.refresh W st
  | some tok =>
    let now := W.clock st.clockReads
    let st1 := { st with clockReads := st.clockReads + 1 }
    if tok.ExpiresIn < now then getAccessToken.refresh W st1
    else (.ok tok.AccessToken, st1)

/-- The grant reply makes `getAccessTokenFromNet` return no error. -/
def GrantReply.accepted : GrantReply → Bool
  | .failed _ => false
  | .decoded tok => !decide (tok.ErrCode > 0)

/-! ## type.go and context.go: replies -/

/-- Model of `wxResp`, the fields shared by all replies. -/
structure wxResp where
  ToUserName : List Nat
  ToParty : List Nat
  ToTag : List Nat
  FromUserName : List Nat
  CreateTime : Int
  MsgType : List Nat
  AgentId : Int
  Safe : Int
  deriving DecidableEq, Repr

/-- Model of `Text`: a `wxResp` with the text content. -/
structure Text extends wxResp where
  Content : List Nat
  deriving DecidableEq, Repr

/-- Model of `(*server).newWxResp`: `to` is split at the spaces into user, party and tag. -/
def server.newWxResp (s : server) (msgType to_ : List Nat) : wxResp :=
  let toArr := to_.splitOn 32
  { ToUserName := toArr.getD 0 []
    ToParty := if toArr.length > 1 then toArr.getD 1 [] else []
    ToTag := if toArr.length > 2 then toArr.getD 2 [] else []
    FromUserName := []
    CreateTime := 0
    MsgType := msgType
    AgentId := s.agentId
    Safe := s.safe }

/-- Model of `(*server).NewText`: the strings of `msg` are joined into the content. -/
def server.NewText (s : server) (to_ : List Nat) (msg : List (List Nat)) : Text :=
  { s.newWxResp (ascii "text") to_ with Content := msg.flatten }

/-- The values `context.Resp` holds when it is not nil: a reply built by the business logic,
or the encrypted reply `Reply` puts in its place. -/
inductive RespValue where
  | text (t : Text)
  | enc (re : wxRespEnc)
  deriving DecidableEq, Repr

/-- The encoders of `encoding/xml` that `Reply` calls: `xml.MarshalIndent(v, "", "  ")`, and
`xml.NewEncoder(w).Encode(v)` given by the bytes it writes and the error it returns. -/
structure XmlEncoder where
  marshalIndent : RespValue → Res (List Nat)
  encode : RespValue → List Nat × Option String

/-- The parts of an `http.ResponseWriter` that `Reply` touches: the header and the bytes
written to the body. -/
structure ResponseWriter where
  header : List (List Nat × List Nat)
  body : List Nat
  deriving DecidableEq, Repr

/-- Model of `Header().Set(key, value)`: the value replaces the ones the key had. -/
def ResponseWriter.setHeader (w : ResponseWriter) (key value : List Nat) : ResponseWriter :=
  { w with header := (key, value) :: w.header.filter (fun kv => kv.1 != key) }

/-- The `context` as `Reply` sees it: the fields above together with `Resp` (`none` for nil)
and `Writer`, and a count of the calls of `encryptMsg` made through it. -/
structure ReplyContext extends context where
  Resp : Option RespValue
  Writer : ResponseWriter
  encryptions : Nat
  deriving DecidableEq, Repr

/-- The error `Reply` returns on a repeated call. -/
def duplicateReply : String := "重复调用错误"

/-- The end of `Reply`: set the content type and encode `Resp` into the writer. -/
def context.Reply.send (X : XmlEncoder) (c : ReplyContext) (resp : RespValue) :
    Res (Option String) × ReplyContext :=
  let w := c.Writer.setHeader (ascii "Content-Type") (ascii "application/xml;charset=UTF-8")
  (.ok (X.encode resp).2, { c with Writer := { w with body := w.body ++ (X.encode resp).1 } })

/-- Model of `(*context).Reply`. The flag `hasReply` is tested first and set before anything
else happens; in safe mode `Resp` is marshalled, encrypted and replaced by the encrypted
reply. The result is the returned error (`none` for nil) and the context after the call. -/
def context.Reply (P : Crypto) (X : XmlEncoder) (s : server) (intn : Nat → Nat)
    (iv : Option (List Nat)) (c : ReplyContext) : Res (Option String) × ReplyContext :=
  if c.hasReply then (.ok (some duplicateReply), c)
  else
    let c1 : ReplyContext := { c with hasReply := true }
    match c1.Resp with
    | none => (.ok none, c1)
    | some resp =>
      if s.safeMode then
        match X.marshalIndent resp with
        | .panicked why => (.panicked why, c1)
        | .err e => (.ok (some e), c1)
        | .ok b =>
          match encryptMsg P s intn iv b c1.timestamp c1.nonce with
          | .panicked why => (.panicked why, { c1 with encryptions := c1.encryptions + 1 })
          | .err e => (.ok (some e), { c1 with Resp := none, encryptions := c1.encryptions + 1 })
          | .ok re =>
            context.Reply.send X
              { c1 with Resp := some (.enc re), encryptions := c1.encryptions + 1 } (.enc re)
      else context.Reply.send X c1 resp

/-! ## unicode/utf8 and the string conversions -/

/-- A Unicode scalar value: a code point that is not a surrogate. -/
def isScalar (r : Nat) : Bool := r < 0xD800 || (0xE000 ≤ r && r < 0x110000)

/-- The UTF-8 encoding of one rune, as in the conversion `string(rs)`: a rune that is not a
scalar value is encoded as U+FFFD. -/
def encodeRune (r : Nat) : List Nat :=
  if r < 0x80 then [r]
  else if r < 0x800 then [0xC0 + r / 64, 0x80 + r % 64]
  else if 0xD800 ≤ r ∧ r < 0xE000 then [0xEF, 0xBF, 0xBD]
  else if r < 0x10000 then [0xE0 + r / 4096, 0x80 + r / 64 % 64, 0x80 + r % 64]
  else if r < 0x110000 then
    [0xF0 + r / 262144, 0x80 + r / 4096 % 64, 0x80 + r / 64 % 64, 0x80 + r % 64]
  else [0xEF, 0xBF, 0xBD]

/-- Model of the conversion `string(rs)` of a rune slice. -/
def runesToString (rs : List Nat) : List Nat := rs.flatMap encodeRune

/-- Model of `utf8.DecodeRuneInString`: the first rune of the string and its width in bytes;
an ill-formed or truncated sequence gives U+FFFD with width 1. -/
def decodeRune : List Nat → Nat × Nat
  | [] => (0xFFFD, 0)
  | b0 :: rest =>
    if b0 < 0x80 then (b0, 1)
    else if 0xC2 ≤ b0 ∧ b0 ≤ 0xDF then
      match rest with
      | b1 :: _ =>
        if 0x80 ≤ b1 ∧ b1 ≤ 0xBF then ((b0 - 0xC0) * 64 + (b1 - 0x80), 2) else (0xFFFD, 1)
      | [] => (0xFFFD, 1)
    else if 0xE0 ≤ b0 ∧ b0 ≤ 0xEF then
      match rest with
      | b1 :: b2 :: _ =>
        if (if b0 = 0xE0 then 0xA0 else 0x80) ≤ b1 ∧ b1 ≤ (if b0 = 0xED then 0x9F else 0xBF) ∧
            0x80 ≤ b2 ∧ b2 ≤ 0xBF then
          ((b0 - 0xE0) * 4096 + (b1 - 0x80) * 64 + (b2 - 0x80), 3)
        else (0xFFFD, 1)
      | _ => (0xFFFD, 1)
    else if 0xF0 ≤ b0 ∧ b0 ≤ 0xF4 then
      match rest with
      | b1 :: b2 :: b3 :: _ =>
        if (if b0 = 0xF0 then 0x90 else 0x80) ≤ b1 ∧ b1 ≤ (if b0 = 0xF4 then 0x8F else 0xBF) ∧
            0x80 ≤ b2 ∧ b2 ≤ 0xBF ∧ 0x80 ≤ b3 ∧ b3 ≤ 0xBF then
          ((b0 - 0xF0) * 262144 + (b1 - 0x80) * 4096 + (b2 - 0x80) * 64 + (b3 - 0x80), 4)
        else (0xFFFD, 1)
      | _ => (0xFFFD, 1)
    else (0xFFFD, 1)

/-- The decoding loop of the conversion `[]rune(s)`, with one unit of fuel per rune. -/
def stringToRunes.loop : Nat → List Nat → List Nat
  | 0, _ => []
  | fuel + 1, s =>
    match s with
    | [] => []
    | _ :: _ => (decodeRune s).1 :: stringToRunes.loop fuel (s.drop (decodeRune s).2)

/-- Model of the conversion `[]rune(s)`. -/
def stringToRunes (s : List Nat) : List Nat := stringToRunes.loop s.length s

/-- Model of `utf8.RuneCountInString`. -/
def RuneCountInString (s : List Nat) : Nat := (stringToRunes s).length

/-- Model of `substr`: the runes from `start` up to `end` (excluded); out-of-range bounds give
the empty string, an `end` beyond the length is cut, and `rs[start:end]` panics when `end`
lies below `start`. -/
def substr (str : List Nat) (start stop : Int) : Res (List Nat) :=
  let rs := stringToRunes str
  let length : Int := rs.length
  if start < 0 ∨ start > length ∨ stop < 0 then .ok []
  else if stop > length then .ok (runesToString (rs.drop start.toNat))
  else if stop < start then .panicked "slice bounds out of range"
  else .ok (runesToString ((rs.take stop.toNat).drop start.toNat))

/-! ## server.go: sending -/

/-- The outcome of the POST of `SendMsg`: an error of `postJson`, a body that
`json.Unmarshal` rejects, or the decoded receipt. -/
inductive PostReply where
  | failed (e : List Nat)
  | malformed (e : List Nat)
  | decoded (r : WxErr)
  deriving DecidableEq, Repr

/-- The `WxErr` that `SendMsg` returns for an outcome of its POST: code `-1` with the error
text when the request or the decoding failed, else the receipt. -/
def PostReply.toWxErr : PostReply → WxErr
  | .failed e => ⟨-1, e⟩
  | .malformed e => ⟨-1, e⟩
  | .decoded r => r

/-- The surroundings of the sender: those of the credential cache together with the outcome
of the `k`-th POST to the send endpoint. -/
structure Outside extends World where
  post : Nat → PostReply

/-- The state of the sender: the credential cache, and the messages posted so far, each with
the access token its URL carried. -/
structure SendState where
  token : TokenState
  sent : List (List Nat × Text)
  deriving DecidableEq, Repr

/-- Model of `SendMsg`: take the access token, post the message, return the receipt. -/
def SendMsg (W : Outside) (st : SendState) (v : Text) : Res WxErr × SendState :=
  match getAccessToken W.toWorld st.token with
  | (.ok tk, tok1) =>
    (.ok (W.post st.sent.length).toWxErr, { token := tok1, sent := st.sent ++ [(tk, v)] })
  | (.err e, tok1) => (.err e, { st with token := tok1 })
  | (.panicked why, tok1) => (.panicked why, { st with token := tok1 })

/-- Model of `fmt.Sprintf("%d", n)` for a non-negative `n`. -/
def decimal (n : Nat) : List Nat := (Nat.toDigits 10 n).map Char.toNat

/-- The loop of `SendText` with `k` rounds left, at index `i`: cut the chunk, annotate it,
send it, stop at the first receipt with a non-zero `ErrCode`. -/
def SendText.loop (W : Outside) (s : server) (to_ msg : List Nat) (parts : Nat) :
    Nat → Nat → SendState → Res (Option WxErr) × SendState
  | 0, _, st => (.ok none, st)
  | k + 1, i, st =>
    match substr msg (i * 500) ((i + 1) * 500) with
    | .ok chunk =>
      let partMsg :=
        chunk ++ ascii "\n(" ++ decimal (i + 1) ++ ascii "/" ++ decimal parts ++ ascii ")"
      match SendMsg W st (s.NewText to_ [partMsg]) with
      | (.ok err, st1) =>
        if err.ErrCode ≠ 0 then (.ok (some err), st1)
        else SendText.loop W s to_ msg parts k (i + 1) st1
      | (.err e, st1) => (.err e, st1)
      | (.panicked why, st1) => (.panicked why, st1)
    | .err e => (.err e, st)
    | .panicked why => (.panicked why, st)

/-- Model of `SendText`: `parts = length/500 + 1`; a single part is sent as it is, several
parts go through the loop. The result is the returned `*WxErr` (`none` for nil). -/
def SendText (W : Outside) (s : server) (st : SendState) (to_ msg : List Nat) :
    Res (Option WxErr) × SendState :=
  let length := RuneCountInString msg
  let parts := length / 500 + 1
  if parts = 1 then
    match SendMsg W st (s.NewText to_ [msg]) with
    | (.ok err, st1) => (.ok (some err), st1)
    | (.err e, st1) => (.err e, st1)
    | (.panicked why, st1) => (.panicked why, st1)
  else SendText.loop W s to_ msg parts parts 0 st

/-- The `i`-th chunk (counted from 0) of at most 500 code points of a text given by its
code points, in UTF-8. -/
def chunk (rs : List Nat) (i : Nat) : List Nat :=
  runesToString ((rs.take ((i + 1) * 500)).drop (i * 500))

/-- The `i`-th chunk (counted from 0) followed by a newline and the suffix `(i+1/k)`. -/
def annotatedChunk (rs : List Nat) (k i : Nat) : List Nat :=
  chunk rs i ++ ascii "\n(" ++ decimal (i + 1) ++ ascii "/" ++ decimal k ++ ascii ")"

/-- The envelope codec round trip `decrypt(encrypt(msg))`: `decryptMsg` applied to the
`Encrypt` field of what `encryptMsg` returns. -/
def roundTrip (P : Crypto) (s : server) (intn : Nat → Nat) (ivEnc ivDec : Option (List Nat))
    (msg timeStamp nonce : List Nat) : Res (List Nat) :=
  match encryptMsg P s intn ivEnc msg timeStamp nonce with
  | .ok re => decryptMsg P s ivDec re.Encrypt
  | .err e => .err e
  | .panicked why => .panicked why

/-- The byte string with bit `j` of the byte at offset `i` flipped. -/
def flipBit (bs : List Nat) (i j : Nat) : List Nat := bs.set i (bs.getD i 0 ^^^ 2 ^ j)

/-- Decryption of a tampered envelope: `decryptMsg` applied to the `Encrypt` string of
`encryptMsg` after bit `j` of byte `i` of its base64-decoded ciphertext was flipped. -/
def tamperedRoundTrip (P : Crypto) (s : server) (intn : Nat → Nat)
    (ivEnc ivDec : Option (List Nat)) (msg timeStamp nonce : List Nat) (i j : Nat) :
    Res (List Nat) :=
  match encryptMsg P s intn ivEnc msg timeStamp nonce with
  | .ok re =>
    match base64Decode re.Encrypt with
    | some ct => decryptMsg P s ivDec (base64Encode (flipBit ct i j))
    | none => .err "illegal base64 data"
  | .err e => .err e
  | .panicked why => .panicked why

/-! ## A concrete instance for evaluation -/

/-- A small instance of `Crypto` on which the definitions can be evaluated: the block function
adds the key length to every byte and reverses the block, the digest is a 20-byte checksum.
It is lawful; the theorems below hold for every lawful instance. -/
def toyCrypto : Crypto where
  sha1 := fun m => (List.range 20).map (fun i => (m.sum + i * m.length) % 256)
  aesEncryptBlock := fun key b => (b.map (fun x => (x + key.length) % 256)).reverse
  aesDecryptBlock := fun key b =>
    (b.map (fun x => (x + (256 - key.length % 256)) % 256)).reverse

/-- Stand-in decoders for the examples: the whole input becomes the `Content` of a `WxMsg`,
respectively the `Encrypt` field of a `WxMsgEnc`. -/
def toyDecoders : Decoders where
  xmlMsg := fun input m => ({ m with Content := input }, false)
  jsonMsg := fun input m => ({ m with Content := input }, false)
  xmlEnc := fun input m => ({ m with Encrypt := input }, false)
  jsonEnc := fun input m => ({ m with Encrypt := input }, false)

/-- A server in safe mode with a 32-byte key, for the examples. -/
def exampleServer : server where
  appId := ascii "wx1234"
  token := ascii "token1"
  aesKey := List.range 32
  safeMode := true
  entMode := true
  dataFormat := ascii "XML"

/-- The example server in plaintext mode: no AES key configured. -/
def plainServer : server := { exampleServer with safeMode := false, aesKey := [] }

/-- A POST callback whose signature does not match. -/
def badPost : Request where
  Method := ascii "POST"
  form := [(ascii "timestamp", ascii "1409304348"), (ascii "nonce", ascii "tmp"),
    (ascii "signature", ascii "bad")]
  Body := ascii "<xml><Content>pay</Content></xml>"

/-- Stand-in XML encoders for the examples: the content, respectively the ciphertext,
between `<xml>` tags. -/
def toyXml : XmlEncoder where
  marshalIndent := fun v =>
    match v with
    | .text t => .ok (ascii "<xml>" ++ t.Content ++ ascii "</xml>")
    | .enc re => .ok (ascii "<xml>" ++ re.Encrypt ++ ascii "</xml>")
  encode := fun v =>
    match v with
    | .text t => (ascii "<xml>" ++ t.Content ++ ascii "</xml>", none)
    | .enc re => (ascii "<xml>" ++ re.Encrypt ++ ascii "</xml>", none)

/-- A context holding a text reply that was not sent yet. -/
def exampleReply : ReplyContext where
  timestamp := ascii "1409304348"
  nonce := ascii "tmp"
  Msg := WxMsg.zero
  hasReply := false
  Resp := some (.text (exampleServer.NewText (ascii "u1 p1") [ascii "hi"]))
  Writer := ⟨[], []⟩
  encryptions := 0

/-- Surroundings in which every grant request and every send succeeds. -/
def allDelivered : Outside where
  grant := fun _ =>
    .decoded { ErrCode := 0, ErrMsg := [], AccessToken := ascii "tok", ExpiresIn := 7200 }
  clock := fun _ => 100
  post := fun _ => .decoded ⟨0, ascii "ok"⟩

/-- Surroundings in which the second send is refused with code 40014. -/
def secondRefused : Outside where
  grant := fun _ =>
    .decoded { ErrCode := 0, ErrMsg := [], AccessToken := ascii "tok", ExpiresIn := 7200 }
  clock := fun _ => 100
  post := fun k => if k = 1 then .decoded ⟨40014, ascii "invalid access_token"⟩
    else .decoded ⟨0, ascii "ok"⟩

/-- The sender before its first message: no credential, nothing sent. -/
def freshSender : SendState := ⟨⟨none, 0, 0, 0⟩, []⟩

/-- Surroundings in which the grant endpoint answers `errcode = -1`, "system busy", to the
first request and grants a token to every later one. -/
def busyThenGranted : World where
  grant := fun k =>
    if k = 0 then
      .decoded { ErrCode := -1, ErrMsg := ascii "system busy", AccessToken := [], ExpiresIn := 0 }
    else .decoded { ErrCode := 0, ErrMsg := [], AccessToken := ascii "tok", ExpiresIn := 7200 }
  clock := fun _ => 100

/-! # Theorems -/

theorem isBytes_append {a b : List Nat} : IsBytes (a ++ b) ↔ IsBytes a ∧ IsBytes b := by
  simp only [IsBytes, List.mem_append]
  constructor
  · intro h; exact ⟨fun x hx => h x (Or.inl hx), fun x hx => h x (Or.inr hx)⟩
  · rintro ⟨h1, h2⟩ x (hx | hx)
    · exact h1 x hx
    · exact h2 x hx

theorem isBytes_take {a : List Nat} (n : Nat) (h : IsBytes a) : IsBytes (a.take n) :=
  fun x hx => h x (List.mem_of_mem_take hx)

theorem isBytes_drop {a : List Nat} (n : Nat) (h : IsBytes a) : IsBytes (a.drop n) :=
  fun x hx => h x (List.mem_of_mem_drop hx)

theorem xorBytes_length (a b : List Nat) : (xorBytes a b).length = min a.length b.length := by
  simp [xorBytes]

theorem xorBytes_isBytes : ∀ (a b : List Nat), IsBytes a → IsBytes b → IsBytes (xorBytes a b)
  | [], _, _, _ => by simp [xorBytes, IsBytes]
  | _ :: _, [], _, _ => by simp [xorBytes, IsBytes]
  | x :: a, y :: b, ha, hb => by
    have hx : x < 2 ^ 8 := ha x (by simp)
    have hy : y < 2 ^ 8 := hb y (by simp)
    have ih := xorBytes_isBytes a b (fun z hz => ha z (by simp [hz])) (fun z hz => hb z (by simp [hz]))
    intro z hz
    simp only [xorBytes, List.zipWith_cons_cons, List.mem_cons] at hz
    rcases hz with rfl | hz
    · exact Nat.xor_lt_two_pow hx hy
    · exact ih z hz

theorem xorBytes_cancel : ∀ (a b : List Nat), a.length = b.length → xorBytes (xorBytes a b) b = a
  | [], [], _ => rfl
  | [], _ :: _, h => by simp at h
  | _ :: _, [], h => by simp at h
  | x :: a, y :: b, h => by
    have ih := xorBytes_cancel a b (by simpa using h)
    simp only [xorBytes, List.zipWith_cons_cons, List.cons.injEq] at ih ⊢
    exact ⟨by rw [Nat.xor_assoc, Nat.xor_self, Nat.xor_zero], ih⟩

theorem isBlock_xor {a b : List Nat} (ha : IsBlock a) (hb : IsBlock b) : IsBlock (xorBytes a b) :=
  ⟨by rw [xorBytes_length, ha.1, hb.1]; rfl, xorBytes_isBytes a b ha.2 hb.2⟩

theorem isBlock_take {src : List Nat} (h : 16 ≤ src.length) (hb : IsBytes src) :
    IsBlock (src.take 16) :=
  ⟨by rw [List.length_take]; omega, isBytes_take 16 hb⟩

/-- CBC encryption of `n` whole blocks gives `n` whole blocks of bytes. -/
theorem cbcEncryptBlocks_spec (P : Crypto) (hP : P.Lawful) (key : List Nat)
    (hk : validKeySize key.length = true) :
    ∀ (n : Nat) (iv src : List Nat), IsBlock iv → src.length = 16 * n → IsBytes src →
      (cbcEncryptBlocks P key n iv src).length = 16 * n ∧
        IsBytes (cbcEncryptBlocks P key n iv src)
  | 0, _, _, _, _, _ => by simp [cbcEncryptBlocks, IsBytes]
  | n + 1, iv, src, hiv, hl, hb => by
    have hblk := hP.encrypt_block key _ hk (isBlock_xor (isBlock_take (by omega) hb) hiv)
    have ih := cbcEncryptBlocks_spec P hP key hk n _ (src.drop 16) hblk
      (by rw [List.length_drop]; omega) (isBytes_drop 16 hb)
    simp only [cbcEncryptBlocks, List.length_append, isBytes_append]
    exact ⟨by rw [hblk.1, ih.1]; omega, hblk.2, ih.2⟩

/-- CBC decryption under the IV used for encryption recovers the plaintext. -/
theorem cbcDecrypt_encrypt (P : Crypto) (hP : P.Lawful) (key : List Nat)
    (hk : validKeySize key.length = true) :
    ∀ (n : Nat) (iv src : List Nat), IsBlock iv → src.length = 16 * n → IsBytes src →
      cbcDecryptBlocks P key n iv (cbcEncryptBlocks P key n iv src) = src
  | 0, _, src, _, hl, _ => by
    have : src = [] := List.length_eq_zero.mp (by omega)
    simp [cbcDecryptBlocks, cbcEncryptBlocks, this]
  | n + 1, iv, src, hiv, hl, hb => by
    have hx := isBlock_xor (isBlock_take (by omega) hb) hiv
    have hblk := hP.encrypt_block key _ hk hx
    have ih := cbcDecrypt_encrypt P hP key hk n _ (src.drop 16) hblk
      (by rw [List.length_drop]; omega) (isBytes_drop 16 hb)
    simp only [cbcDecryptBlocks, cbcEncryptBlocks]
    rw [List.take_left' hblk.1, List.drop_left' hblk.1, hP.decrypt_encrypt key _ hk hx, ih,
      xorBytes_cancel _ _ (by rw [List.length_take, hiv.1]; omega), List.take_append_drop]

/-- CBC decryption under another IV: only the first block differs from the plaintext. -/
theorem cbcDecrypt_encrypt_iv (P : Crypto) (hP : P.Lawful) (key : List Nat)
    (hk : validKeySize key.length = true) (n : Nat) (iv1 iv2 src : List Nat)
    (h1 : IsBlock iv1) (h2 : IsBlock iv2) (hl : src.length = 16 * (n + 1)) (hb : IsBytes src) :
    ∃ g, g.length = 16 ∧
      cbcDecryptBlocks P key (n + 1) iv2 (cbcEncryptBlocks P key (n + 1) iv1 src)
        = g ++ src.drop 16 := by
  have hx := isBlock_xor (isBlock_take (by omega) hb) h1
  have hblk := hP.encrypt_block key _ hk hx
  refine ⟨xorBytes (xorBytes (src.take 16) iv1) iv2, ?_, ?_⟩
  · rw [xorBytes_length, hx.1, h2.1]; rfl
  · simp only [cbcDecryptBlocks, cbcEncryptBlocks]
    rw [List.take_left' hblk.1, List.drop_left' hblk.1, hP.decrypt_encrypt key _ hk hx,
      cbcDecrypt_encrypt P hP key hk n _ (src.drop 16) hblk
        (by rw [List.length_drop]; omega) (isBytes_drop 16 hb)]

theorem isBytes_replicate (n v : Nat) (h : v < 256) : IsBytes (List.replicate n v) := by
  intro x hx
  rw [(List.mem_replicate.mp hx).2]; exact h

/-- Unpadding a buffer that ends in `p` bytes of value `p` strips exactly those bytes. -/
theorem pkcs7UnPad_padded (F : List Nat) (p : Nat) (hp : 1 ≤ p) :
    pkcs7UnPad ⟨F ++ List.replicate p p, F.length + p⟩ = .ok ⟨F ++ List.replicate p p, F.length⟩ := by
  have hget : (F ++ List.replicate p p).getD (F.length + p - 1) 0 = p := by
    rw [List.getD_eq_getElem?_getD, List.getElem?_append_right (by omega),
      List.getElem?_replicate]
    have : F.length + p - 1 - F.length < p := by omega
    simp [this]
  simp only [pkcs7UnPad, hget]
  rw [if_neg (by omega), if_neg (by omega)]
  simp

theorem readInt32_int32Bytes (n : Nat) (h : n < 2 ^ 31) : readInt32 (int32Bytes n) = n := by
  simp only [int32Bytes, readInt32]
  have e : n / 2 ^ 24 % 256 * 2 ^ 24 + n / 2 ^ 16 % 256 * 2 ^ 16 + n / 2 ^ 8 % 256 * 2 ^ 8
      + n % 256 = n := by
    norm_num at h ⊢; omega
  rw [e, if_pos h]

theorem int32Bytes_isBytes (n : Nat) : IsBytes (int32Bytes n) := by
  intro x hx
  simp only [int32Bytes, List.mem_cons, List.mem_singleton, List.not_mem_nil, or_false] at hx
  rcases hx with rfl | rfl | rfl | rfl <;> exact Nat.mod_lt _ (by norm_num)

theorem int32Bytes_length (n : Nat) : (int32Bytes n).length = 4 := rfl

/-- The frame check on a well-formed frame followed by padding: the payload is returned if
the trailing bytes are the configured identifier, and the identifier error otherwise. -/
theorem decryptMsgFrame_frame (appId g msg tail pad : List Nat) (hg : g.length = 16)
    (hm : msg.length ≤ 1000000) :
    decryptMsgFrame appId
        ⟨(g ++ int32Bytes msg.length ++ msg ++ tail) ++ pad,
          (g ++ int32Bytes msg.length ++ msg ++ tail).length⟩
      = if tail = appId then .ok msg else .err "AppId is invalid" := by
  have h1 : (((g ++ int32Bytes msg.length ++ msg ++ tail) ++ pad).drop 16).take 4
      = int32Bytes msg.length := by
    rw [List.append_assoc, List.append_assoc, List.append_assoc, List.drop_left' hg,
      List.take_left' (int32Bytes_length _)]
  have h2 : readInt32 (int32Bytes msg.length) = (msg.length : Int) :=
    readInt32_int32Bytes _ (by norm_num; omega)
  have hgl : (g ++ int32Bytes msg.length).length = 20 := by
    rw [List.length_append, hg, int32Bytes_length]
  have h3 : (Slice.bytes ⟨(g ++ int32Bytes msg.length ++ msg ++ tail) ++ pad,
      (g ++ int32Bytes msg.length ++ msg ++ tail).length⟩).drop (20 + msg.length) = tail := by
    simp only [Slice.bytes]
    rw [List.take_left' rfl]
    exact List.drop_left' (by rw [List.length_append, hgl])
  have h4 : (((g ++ int32Bytes msg.length ++ msg ++ tail) ++ pad).take (20 + msg.length)).drop 20
      = msg := by
    rw [List.append_assoc (g ++ int32Bytes msg.length ++ msg),
      List.take_left' (by rw [List.length_append, hgl]), List.drop_left' hgl]
  unfold decryptMsgFrame
  simp only [Slice.cap, frameLength, h1, h2, Int.toNat_ofNat, h3, h4]
  rw [if_neg (by simp only [List.length_append, hg, int32Bytes_length]; omega),
    if_neg (by omega),
    if_neg (by simp only [List.length_append, hg, int32Bytes_length]; omega)]
  by_cases ht : tail = appId <;> simp [ht]

theorem validKeySize_of (k : Nat) (hk : k = 16 ∨ k = 32) : validKeySize k = true := by
  rcases hk with rfl | rfl <;> rfl

/-- Under a 16- or 32-byte key `aesEncrypt` succeeds: it returns the CBC encryption of the
plaintext followed by `p = len(key) - len(src) % len(key)` bytes of value `p`. -/
theorem aesEncrypt_ok (P : Crypto) (key : List Nat) (hk : key.length = 16 ∨ key.length = 32)
    (iv src : List Nat) :
    ∃ p n, 1 ≤ p ∧ p ≤ 32 ∧ src.length + p = 16 * n ∧
      aesEncrypt P (some iv) src key
        = .ok (cbcEncryptBlocks P key n iv (src ++ List.replicate p p)) := by
  refine ⟨key.length - src.length % key.length,
    (src.length + (key.length - src.length % key.length)) / 16, ?_, ?_, ?_, ?_⟩
  · rcases hk with h | h <;> rw [h] <;> omega
  · rcases hk with h | h <;> rw [h] <;> omega
  · rcases hk with h | h <;> rw [h] <;> omega
  · have hmod : (key.length - src.length % key.length) % 256
        = key.length - src.length % key.length := by
      rcases hk with h | h <;> rw [h] <;> omega
    have hlen : (src.length + (key.length - src.length % key.length)) % 16 = 0 := by
      rcases hk with h | h <;> rw [h] <;> omega
    have hbs : ¬ (key.length < 2 ∨ key.length ≥ 256) := by
      rcases hk with h | h <;> rw [h] <;> omega
    simp only [aesEncrypt, pkcs7Pad, if_neg hbs, hmod, validKeySize_of _ hk,
      List.length_append, List.length_replicate, hlen]
    simp

/-- Decrypting what `aesEncrypt` produced, under any IV: the unpadded buffer keeps the
plaintext from offset 16 on, in a backing array that still carries the padding. -/
theorem aesDecrypt_aesEncrypt (P : Crypto) (hP : P.Lawful) (key : List Nat)
    (hk : key.length = 16 ∨ key.length = 32) (iv1 iv2 src : List Nat) (h1 : IsBlock iv1)
    (h2 : IsBlock iv2) (hs : 16 ≤ src.length) (hb : IsBytes src) :
    ∃ ct g pad, aesEncrypt P (some iv1) src key = .ok ct ∧ IsBytes ct ∧ g.length = 16 ∧
      aesDecrypt P (some iv2) ct key
        = .ok ⟨(g ++ src.drop 16) ++ pad, (g ++ src.drop 16).length⟩ := by
  obtain ⟨p, n, hp1, hp2, hn, he⟩ := aesEncrypt_ok P key hk iv1 src
  have hv := validKeySize_of _ hk
  have hpb : IsBytes (src ++ List.replicate p p) :=
    isBytes_append.mpr ⟨hb, isBytes_replicate p p (by omega)⟩
  have hpl : (src ++ List.replicate p p).length = 16 * n := by
    rw [List.length_append, List.length_replicate, hn]
  obtain ⟨m, rfl⟩ : ∃ m, n = m + 1 := ⟨n - 1, by omega⟩
  have hspec := cbcEncryptBlocks_spec P hP key hv (m + 1) iv1 _ h1 hpl hpb
  obtain ⟨g, hg, hdec⟩ := cbcDecrypt_encrypt_iv P hP key hv m iv1 iv2 _ h1 h2 hpl hpb
  refine ⟨_, g, List.replicate p p, he, hspec.2, hg, ?_⟩
  have hdrop : (src ++ List.replicate p p).drop 16 = src.drop 16 ++ List.replicate p p :=
    List.drop_append_of_le_length hs
  have hlen2 : (g ++ src.drop 16).length + p = 16 * (m + 1) := by
    rw [List.length_append, hg, List.length_drop]; omega
  simp only [aesDecrypt, hv, hspec.1]
  rw [if_neg (by simp), if_neg (by omega),
    show 16 * (m + 1) / 16 = m + 1 by omega, hdec, hdrop, ← List.append_assoc, ← hlen2]
  exact pkcs7UnPad_padded _ p hp1
theorem b64Val_b64Char (i : Nat) (h : i < 64) : b64Val (b64Char i) = some i := by
  revert i; decide

theorem b64Char_ne (i : Nat) (h : i < 64) : b64Char i ≠ 61 ∧ b64Char i ≠ 10 ∧ b64Char i ≠ 13 := by
  revert i; decide

theorem base64Encode_filter (bs : List Nat) (hb : IsBytes bs) :
    (base64Encode bs).filter (fun c => c != 10 && c != 13) = base64Encode bs := by
  rw [List.filter_eq_self]
  induction bs using base64Encode.induct with
  | case1 a b c rest ih =>
    have ha : a < 256 := hb a (by simp)
    have hb2 : b < 256 := hb b (by simp)
    have hc : c < 256 := hb c (by simp)
    have hr : IsBytes rest := fun x hx => hb x (by simp [hx])
    intro x hx
    simp only [base64Encode, List.mem_cons] at hx
    rcases hx with rfl | rfl | rfl | rfl | hx
    · have := b64Char_ne (a / 4) (by omega); simp [this]
    · have := b64Char_ne (a % 4 * 16 + b / 16) (by omega); simp [this]
    · have := b64Char_ne (b % 16 * 4 + c / 64) (by omega); simp [this]
    · have := b64Char_ne (c % 64) (by omega); simp [this]
    · exact ih hr x hx
  | case2 a b =>
    have ha : a < 256 := hb a (by simp)
    have hb2 : b < 256 := hb b (by simp)
    intro x hx
    simp only [base64Encode, List.mem_cons] at hx
    rcases hx with rfl | rfl | rfl | rfl | hx
    · have := b64Char_ne (a / 4) (by omega); simp [this]
    · have := b64Char_ne (a % 4 * 16 + b / 16) (by omega); simp [this]
    · have := b64Char_ne (b % 16 * 4) (by omega); simp [this]
    · simp
    · simp at hx
  | case3 a =>
    have ha : a < 256 := hb a (by simp)
    intro x hx
    simp only [base64Encode, List.mem_cons] at hx
    rcases hx with rfl | rfl | rfl | rfl | hx
    · have := b64Char_ne (a / 4) (by omega); simp [this]
    · have := b64Char_ne (a % 4 * 16) (by omega); simp [this]
    · simp
    · simp
    · simp at hx
  | case4 => simp [base64Encode]

theorem base64DecodeQuanta_encode (bs : List Nat) (hb : IsBytes bs) :
    base64DecodeQuanta (base64Encode bs) = some bs := by
  induction bs using base64Encode.induct with
  | case1 a b c rest ih =>
    have ha : a < 256 := hb a (by simp)
    have hb2 : b < 256 := hb b (by simp)
    have hc : c < 256 := hb c (by simp)
    have hr : IsBytes rest := fun x hx => hb x (by simp [hx])
    have h4 := b64Char_ne (c % 64) (by omega)
    simp only [base64Encode, base64DecodeQuanta, h4.1, and_false, if_false,
      b64Val_b64Char (a / 4) (by omega), b64Val_b64Char (a % 4 * 16 + b / 16) (by omega),
      b64Val_b64Char (b % 16 * 4 + c / 64) (by omega), b64Val_b64Char (c % 64) (by omega), ih hr]
    simp only [Option.some.injEq, List.cons.injEq, and_true]
    omega
  | case2 a b =>
    have ha : a < 256 := hb a (by simp)
    have hb2 : b < 256 := hb b (by simp)
    have h3 := b64Char_ne (b % 16 * 4) (by omega)
    simp only [base64Encode, base64DecodeQuanta, h3.1, and_self, if_true, if_false,
      b64Val_b64Char (a / 4) (by omega), b64Val_b64Char (a % 4 * 16 + b / 16) (by omega),
      b64Val_b64Char (b % 16 * 4) (by omega)]
    simp only [Option.some.injEq, List.cons.injEq, and_true]
    omega
  | case3 a =>
    have ha : a < 256 := hb a (by simp)
    simp only [base64Encode, base64DecodeQuanta, and_self, if_true,
      b64Val_b64Char (a / 4) (by omega), b64Val_b64Char (a % 4 * 16) (by omega)]
    simp only [Option.some.injEq, List.cons.injEq, and_true]
    omega
  | case4 => simp [base64Encode, base64DecodeQuanta]

theorem base64Decode_encode (bs : List Nat) (hb : IsBytes bs) :
    base64Decode (base64Encode bs) = some bs := by
  unfold base64Decode
  rw [base64Encode_filter bs hb, base64DecodeQuanta_encode bs hb]

theorem getRandomString_length (intn : Nat → Nat) (l : Nat) :
    (getRandomString intn l).length = l := by
  simp [getRandomString]

theorem getRandomString_isBytes (intn : Nat → Nat) (l : Nat) :
    IsBytes (getRandomString intn l) := by
  have h : ∀ j, j < 36 → (ascii "0123456789abcdefghijklmnopqrstuvwxyz").getD j 0 < 256 := by
    decide
  intro x hx
  simp only [getRandomString, List.mem_map, List.mem_range] at hx
  obtain ⟨i, _, rfl⟩ := hx
  exact h _ (Nat.mod_lt _ (by norm_num))

/-- What `encryptMsg` returns when `aesEncrypt` succeeds. -/
theorem encryptMsg_of_aesEncrypt (P : Crypto) (s : server) (intn : Nat → Nat)
    (iv : Option (List Nat)) (msg timeStamp nonce ct : List Nat)
    (h : aesEncrypt P iv (getRandomString intn 16 ++ int32Bytes msg.length ++ msg ++ s.appId)
      s.aesKey = .ok ct) :
    encryptMsg P s intn iv msg timeStamp nonce
      = .ok
        { Encrypt := base64Encode ct
          MsgSignature := sortSha1 P [s.token, timeStamp, nonce, base64Encode ct]
          TimeStamp := timeStamp
          Nonce := nonce } := by
  simp only [encryptMsg, h]

/-- On the base64 encoding of a byte string, `decryptMsg` is `aesDecrypt` followed by the
frame check. -/
theorem decryptMsg_base64Encode (P : Crypto) (s : server) (iv : Option (List Nat))
    (ct : List Nat) (hct : IsBytes ct) (buf : Slice)
    (h : aesDecrypt P iv ct s.aesKey = .ok buf) :
    decryptMsg P s iv (base64Encode ct) = decryptMsgFrame s.appId buf := by
  simp only [decryptMsg, base64Decode_encode ct hct, h]

/-- The frame `encryptMsg` builds, from offset 16 on. -/
theorem frame_drop (rd hdr msg tail : List Nat) (hrd : rd.length = 16) :
    (rd ++ hdr ++ msg ++ tail).drop 16 = hdr ++ msg ++ tail := by
  rw [List.append_assoc, List.append_assoc, List.drop_left' hrd, List.append_assoc]

theorem toyCrypto_lawful : toyCrypto.Lawful where
  encrypt_block := by
    intro key b _ hb
    refine ⟨by simp [toyCrypto, hb.1], ?_⟩
    intro x hx
    simp only [toyCrypto, List.mem_reverse, List.mem_map] at hx
    obtain ⟨y, _, rfl⟩ := hx
    exact Nat.mod_lt _ (by norm_num)
  decrypt_block := by
    intro key b _ hb
    refine ⟨by simp [toyCrypto, hb.1], ?_⟩
    intro x hx
    simp only [toyCrypto, List.mem_reverse, List.mem_map] at hx
    obtain ⟨y, _, rfl⟩ := hx
    exact Nat.mod_lt _ (by norm_num)
  decrypt_encrypt := by
    intro key b _ hb
    simp only [toyCrypto, List.map_reverse, List.reverse_reverse, List.map_map]
    conv_rhs => rw [← List.map_id b]
    apply List.map_congr_left
    intro x hx
    have := hb.2 x hx
    simp only [Function.comp, id]
    omega

theorem decryptMsgFrame_oversize (appId g rest : List Nat) (n len : Nat) (hg : g.length = 16)
    (h1 : 1000000 < n) (h2 : n < 2 ^ 31) :
    decryptMsgFrame appId ⟨g ++ int32Bytes n ++ rest, len⟩ = .err "AesKey is invalid" := by
  have e1 : ((g ++ int32Bytes n ++ rest).drop 16).take 4 = int32Bytes n := by
    rw [List.append_assoc, List.drop_left' hg, List.take_left' (int32Bytes_length _)]
  unfold decryptMsgFrame
  simp only [Slice.cap, frameLength, e1, readInt32_int32Bytes n h2]
  rw [if_neg (by simp only [List.length_append, hg, int32Bytes_length]; omega),
    if_pos (by right; exact_mod_cast h1)]

theorem roundTrip_oversize (P : Crypto) (hP : P.Lawful) (s : server)
    (hk : s.aesKey.length = 16 ∨ s.aesKey.length = 32) (hid : IsBytes s.appId)
    (msg : List Nat) (hm : IsBytes msg) (hl : 1000000 < msg.length) (hl2 : msg.length < 2 ^ 31)
    (intn : Nat → Nat) (iv1 iv2 : List Nat) (h1 : IsBlock iv1) (h2 : IsBlock iv2)
    (timeStamp nonce : List Nat) :
    roundTrip P s intn (some iv1) (some iv2) msg timeStamp nonce = .err "AesKey is invalid" := by
  have hrl := getRandomString_length intn 16
  have hfb : IsBytes (getRandomString intn 16 ++ int32Bytes msg.length ++ msg ++ s.appId) :=
    isBytes_append.mpr ⟨isBytes_append.mpr ⟨isBytes_append.mpr
      ⟨getRandomString_isBytes intn 16, int32Bytes_isBytes _⟩, hm⟩, hid⟩
  obtain ⟨ct, g, pad, he, hct, hg, hd⟩ := aesDecrypt_aesEncrypt P hP s.aesKey hk iv1 iv2 _ h1 h2
    (by simp only [List.length_append, hrl]; omega) hfb
  have e : g ++ (int32Bytes msg.length ++ msg ++ s.appId) ++ pad
      = g ++ int32Bytes msg.length ++ (msg ++ s.appId ++ pad) := by
    simp only [List.append_assoc]
  rw [frame_drop _ _ _ _ hrl, e] at hd
  simp only [roundTrip, encryptMsg_of_aesEncrypt P s intn _ msg timeStamp nonce ct he]
  rw [decryptMsg_base64Encode P s _ ct hct _ hd]
  exact decryptMsgFrame_oversize s.appId g _ msg.length _ hg hl hl2

theorem isBlock_replicate (v : Nat) (h : v < 256) : IsBlock (List.replicate 16 v) :=
  ⟨List.length_replicate 16 v, isBytes_replicate 16 v h⟩


/-- C1, counterexample: under a 24-byte key (one `aes.NewCipher` accepts) `encryptMsg` pads
the frame to a multiple of 24 and `CryptBlocks` panics, and a plaintext of 1,000,001 bytes
encrypts but is refused by `decryptMsg` with its length error: neither round trip returns
the plaintext. -/
theorem roundTrip_counterexample :
    roundTrip toyCrypto { exampleServer with aesKey := List.replicate 24 0 } (fun _ => 0)
        (some (List.replicate 16 0)) (some (List.replicate 16 0))
        (ascii "hello, wecom callback server") (ascii "1409304348") (ascii "tmp")
      = .panicked "crypto/cipher: input not full blocks" ∧
    roundTrip toyCrypto exampleServer (fun _ => 0)
        (some (List.replicate 16 0)) (some (List.replicate 16 0)) (List.replicate 1000001 0)
        (ascii "1409304348") (ascii "tmp")
      = .err "AesKey is invalid" := by
  have h1 : IsBytes (List.replicate 1000001 0) := isBytes_replicate _ 0 (by norm_num)
  have h2 : 1000000 < (List.replicate 1000001 0).length := by
    rw [List.length_replicate]; norm_num
  have h3 : (List.replicate 1000001 0).length < 2 ^ 31 := by
    rw [List.length_replicate]; norm_num
  refine ⟨by decide, ?_⟩
  exact roundTrip_oversize toyCrypto toyCrypto_lawful exampleServer (Or.inr rfl) (by decide)
    _ h1 h2 h3 _ _ _
    (isBlock_replicate 0 (by norm_num)) (isBlock_replicate 0 (by norm_num)) _ _

/-- C1, amended: for every lawful block cipher, every server whose AES key has 16 or 32 bytes,
every channel identifier and every plaintext of at most 1,000,000 bytes, `decryptMsg` applied
to the `Encrypt` string of `encryptMsg` returns exactly the plaintext and no error, whatever
nonce and initialization vectors are drawn on the two sides. -/
theorem decryptMsg_encryptMsg_roundTrip (P : Crypto) (hP : P.Lawful) (s : server)
    (hk : s.aesKey.length = 16 ∨ s.aesKey.length = 32) (hid : IsBytes s.appId)
    (msg : List Nat) (hm : IsBytes msg) (hl : msg.length ≤ 1000000)
    (intn : Nat → Nat) (iv1 iv2 : List Nat) (h1 : IsBlock iv1) (h2 : IsBlock iv2)
    (timeStamp nonce : List Nat) :
    roundTrip P s intn (some iv1) (some iv2) msg timeStamp nonce = .ok msg := by
  have hrl := getRandomString_length intn 16
  have hfb : IsBytes (getRandomString intn 16 ++ int32Bytes msg.length ++ msg ++ s.appId) :=
    isBytes_append.mpr ⟨isBytes_append.mpr ⟨isBytes_append.mpr
      ⟨getRandomString_isBytes intn 16, int32Bytes_isBytes _⟩, hm⟩, hid⟩
  obtain ⟨ct, g, pad, he, hct, hg, hd⟩ := aesDecrypt_aesEncrypt P hP s.aesKey hk iv1 iv2 _ h1 h2
    (by simp only [List.length_append, hrl]; omega) hfb
  rw [frame_drop _ _ _ _ hrl, ← List.append_assoc, ← List.append_assoc] at hd
  simp only [roundTrip, encryptMsg_of_aesEncrypt P s intn _ msg timeStamp nonce ct he]
  rw [decryptMsg_base64Encode P s _ ct hct _ hd, decryptMsgFrame_frame s.appId g msg s.appId pad hg hl]
  simp

/-- C1, witness: the round trip of "hello" on the example server. -/
theorem decryptMsg_encryptMsg_roundTrip_witness :
    roundTrip toyCrypto exampleServer (fun i => 7 * i)
        (some (List.replicate 16 1)) (some (List.replicate 16 2)) (ascii "hello")
        (ascii "1409304348") (ascii "tmp") = .ok (ascii "hello") :=
  decryptMsg_encryptMsg_roundTrip toyCrypto toyCrypto_lawful exampleServer (Or.inr rfl)
    (by decide) (ascii "hello") (by decide) (by decide) _ _ _
    (isBlock_replicate 1 (by norm_num)) (isBlock_replicate 2 (by norm_num)) _ _

theorem flipBit_length (a : List Nat) (i j : Nat) : (flipBit a i j).length = a.length := by
  simp [flipBit]

theorem flipBit_append_left (a b : List Nat) (i j : Nat) (h : i < a.length) :
    flipBit (a ++ b) i j = flipBit a i j ++ b := by
  simp only [flipBit, List.getD_eq_getElem?_getD]
  rw [List.getElem?_append_left h, List.set_append_left _ _ h]

theorem flipBit_append_right (a b : List Nat) (i j : Nat) (h : a.length ≤ i) :
    flipBit (a ++ b) i j = a ++ flipBit b (i - a.length) j := by
  simp only [flipBit, List.getD_eq_getElem?_getD]
  rw [List.getElem?_append_right h, List.set_append_right _ _ h]

theorem flipBit_cons_succ (x : Nat) (a : List Nat) (i j : Nat) :
    flipBit (x :: a) (i + 1) j = x :: flipBit a i j := by
  simp [flipBit]

theorem xor_pow_ne (x j : Nat) : x ^^^ 2 ^ j ≠ x := by
  intro h
  have h2 : x ^^^ (x ^^^ 2 ^ j) = x ^^^ x := by rw [h]
  rw [← Nat.xor_assoc, Nat.xor_self, Nat.zero_xor] at h2
  exact absurd h2 (by positivity)

theorem flipBit_ne : ∀ (a : List Nat) (i j : Nat), i < a.length → flipBit a i j ≠ a
  | [], _, _, h => by simp at h
  | x :: a, 0, j, _ => by
    simp only [flipBit, List.getD_cons_zero, List.set_cons_zero, ne_eq, List.cons.injEq,
      and_true]
    exact xor_pow_ne x j
  | x :: a, i + 1, j, h => by
    rw [flipBit_cons_succ]
    intro e
    exact flipBit_ne a i j (by simpa using h) (List.cons.inj e).2

theorem flipBit_isBytes (a : List Nat) (i j : Nat) (ha : IsBytes a) (hj : j < 8) :
    IsBytes (flipBit a i j) := by
  intro x hx
  rcases List.mem_or_eq_of_mem_set hx with h | rfl
  · exact ha x h
  · have h1 : a.getD i 0 < 2 ^ 8 := by
      rw [List.getD_eq_getElem?_getD]
      cases hq : a[i]? with
      | none => simp
      | some v => exact ha v (List.getElem?_mem hq)
    have h2 : 2 ^ j < 2 ^ 8 := Nat.pow_lt_pow_right (by norm_num) hj
    exact Nat.xor_lt_two_pow h1 h2

/-- Xoring with a block in which one bit was flipped flips that bit of the result. -/
theorem xorBytes_flipBit : ∀ (a c : List Nat) (i j : Nat), a.length = c.length →
    xorBytes (xorBytes a c) (flipBit c i j) = flipBit a i j
  | [], [], _, _, _ => by simp [xorBytes, flipBit]
  | [], _ :: _, _, _, h => by simp at h
  | _ :: _, [], _, _, h => by simp at h
  | x :: a, y :: c, 0, j, h => by
    have hc := xorBytes_cancel a c (by simpa using h)
    simp only [xorBytes, flipBit, List.zipWith_cons_cons, List.getD_cons_zero,
      List.set_cons_zero, List.cons.injEq] at hc ⊢
    refine ⟨?_, hc⟩
    rw [Nat.xor_assoc, ← Nat.xor_assoc y y, Nat.xor_self, Nat.zero_xor]
  | x :: a, y :: c, i + 1, j, h => by
    have ih := xorBytes_flipBit a c i j (by simpa using h)
    rw [flipBit_cons_succ, flipBit_cons_succ]
    simp only [xorBytes, List.zipWith_cons_cons, List.cons.injEq] at ih ⊢
    exact ⟨by rw [Nat.xor_assoc, Nat.xor_self, Nat.xor_zero], ih⟩

/-- CBC malleability: flipping a bit of the first ciphertext block flips the same bit of the
second decrypted block and leaves every later block alone. -/
theorem cbcDecrypt_flipBit (P : Crypto) (hP : P.Lawful) (key : List Nat)
    (hk : validKeySize key.length = true) (n : Nat) (iv1 iv2 src : List Nat)
    (h1 : IsBlock iv1) (h2 : IsBlock iv2) (hl : src.length = 16 * (n + 2)) (hb : IsBytes src)
    (i j : Nat) (hi : i < 16) (hj : j < 8) :
    ∃ g, g.length = 16 ∧
      cbcDecryptBlocks P key (n + 2) iv2 (flipBit (cbcEncryptBlocks P key (n + 2) iv1 src) i j)
        = g ++ flipBit (src.drop 16) i j := by
  have hx0 := isBlock_xor (isBlock_take (by omega) hb) h1
  have hc0 := hP.encrypt_block key _ hk hx0
  have hb1 : IsBytes (src.drop 16) := isBytes_drop 16 hb
  have hl1 : (src.drop 16).length = 16 * (n + 1) := by rw [List.length_drop]; omega
  have hx1 := isBlock_xor (isBlock_take (by omega) hb1) hc0
  have hc1 := hP.encrypt_block key _ hk hx1
  have hf0 : IsBlock (flipBit (P.aesEncryptBlock key (xorBytes (src.take 16) iv1)) i j) :=
    ⟨by rw [flipBit_length, hc0.1], flipBit_isBytes _ i j hc0.2 hj⟩
  have hd0 := hP.decrypt_block key _ hk hf0
  refine ⟨xorBytes (P.aesDecryptBlock key
    (flipBit (P.aesEncryptBlock key (xorBytes (src.take 16) iv1)) i j)) iv2, ?_, ?_⟩
  · rw [xorBytes_length, hd0.1, h2.1]; rfl
  · have hrest := cbcDecrypt_encrypt P hP key hk n _ ((src.drop 16).drop 16) hc1
      (by rw [List.length_drop, hl1]; omega) (isBytes_drop 16 hb1)
    have hsplit : flipBit (src.drop 16) i j
        = flipBit ((src.drop 16).take 16) i j ++ (src.drop 16).drop 16 := by
      conv_lhs => rw [← List.take_append_drop 16 (src.drop 16)]
      exact flipBit_append_left _ _ i j (by rw [List.length_take, hl1]; omega)
    simp only [cbcEncryptBlocks]
    rw [flipBit_append_left _ _ i j (by rw [hc0.1]; exact hi)]
    simp only [cbcDecryptBlocks]
    rw [List.take_left' hf0.1, List.drop_left' hf0.1, List.take_left' hc1.1,
      List.drop_left' hc1.1, hP.decrypt_encrypt key _ hk hx1, hrest,
      xorBytes_flipBit _ _ i j (by rw [List.length_take, hl1, hc0.1]; omega), hsplit]

/-- Decrypting what `aesEncrypt` produced after a bit of its first block was flipped: the
unpadded buffer is the plaintext with the same bit flipped 16 bytes further on. -/
theorem aesDecrypt_flipBit (P : Crypto) (hP : P.Lawful) (key : List Nat)
    (hk : key.length = 16 ∨ key.length = 32) (iv1 iv2 src : List Nat) (h1 : IsBlock iv1)
    (h2 : IsBlock iv2) (hb : IsBytes src) (i j : Nat) (hi : i < 16) (hj : j < 8)
    (hs : 16 + i < src.length) :
    ∃ ct g pad, aesEncrypt P (some iv1) src key = .ok ct ∧ IsBytes ct ∧ g.length = 16 ∧
      aesDecrypt P (some iv2) (flipBit ct i j) key
        = .ok ⟨(g ++ flipBit (src.drop 16) i j) ++ pad,
            (g ++ flipBit (src.drop 16) i j).length⟩ := by
  obtain ⟨p, n, hp1, hp2, hn, he⟩ := aesEncrypt_ok P key hk iv1 src
  have hv := validKeySize_of _ hk
  have hpb : IsBytes (src ++ List.replicate p p) :=
    isBytes_append.mpr ⟨hb, isBytes_replicate p p (by omega)⟩
  have hpl : (src ++ List.replicate p p).length = 16 * n := by
    rw [List.length_append, List.length_replicate, hn]
  obtain ⟨m, rfl⟩ : ∃ m, n = m + 2 := ⟨n - 2, by omega⟩
  have hspec := cbcEncryptBlocks_spec P hP key hv (m + 2) iv1 _ h1 hpl hpb
  obtain ⟨g, hg, hdec⟩ :=
    cbcDecrypt_flipBit P hP key hv m iv1 iv2 _ h1 h2 hpl hpb i j hi hj
  refine ⟨_, g, List.replicate p p, he, hspec.2, hg, ?_⟩
  have hdrop : (src ++ List.replicate p p).drop 16 = src.drop 16 ++ List.replicate p p :=
    List.drop_append_of_le_length (by omega)
  have hlen2 : (g ++ flipBit (src.drop 16) i j).length + p = 16 * (m + 2) := by
    rw [List.length_append, hg, flipBit_length, List.length_drop]; omega
  simp only [aesDecrypt, hv, flipBit_length, hspec.1]
  rw [if_neg (by simp), if_neg (by omega),
    show 16 * (m + 2) / 16 = m + 2 by omega, hdec, hdrop,
    flipBit_append_left _ _ i j (by rw [List.length_drop]; omega), ← List.append_assoc,
    ← hlen2]
  exact pkcs7UnPad_padded _ p hp1

/-- What `tamperedRoundTrip` computes when `aesEncrypt` succeeds with a byte string. -/
theorem tamperedRoundTrip_of_aesEncrypt (P : Crypto) (s : server) (intn : Nat → Nat)
    (iv1 iv2 : Option (List Nat)) (msg timeStamp nonce ct : List Nat) (i j : Nat)
    (hct : IsBytes ct)
    (h : aesEncrypt P iv1 (getRandomString intn 16 ++ int32Bytes msg.length ++ msg ++ s.appId)
      s.aesKey = .ok ct) :
    tamperedRoundTrip P s intn iv1 iv2 msg timeStamp nonce i j
      = decryptMsg P s iv2 (base64Encode (flipBit ct i j)) := by
  simp only [tamperedRoundTrip, encryptMsg_of_aesEncrypt P s intn _ msg timeStamp nonce ct h,
    base64Decode_encode ct hct]

/-- C2, counterexample: flipping the lowest bit of byte 4 of the ciphertext of "hello" makes
`decryptMsg` succeed with the different plaintext "iello". -/
theorem tamperedRoundTrip_counterexample :
    tamperedRoundTrip toyCrypto exampleServer (fun i => 7 * i)
        (some (List.replicate 16 1)) (some (List.replicate 16 2)) (ascii "hello")
        (ascii "1409304348") (ascii "tmp") 4 0 = .ok (ascii "iello") ∧
      ascii "iello" ≠ ascii "hello" := by
  decide

/-- C2, amended: `decryptMsg` has no integrity check of its own. For every envelope produced
by `encryptMsg` under a 16- or 32-byte key with a payload of at most 1,000,000 bytes, and
every single-bit flip in the first 16-byte block of the base64-decoded ciphertext at byte
offset `i` with `4 ≤ i < 16` (CBC carries the flip onto byte `16 + i` of the decrypted frame):
if that byte lies in the payload, `decryptMsg` succeeds and returns the payload with exactly
that bit flipped, a plaintext different from the original; if it lies in the trailing
identifier, `decryptMsg` returns the error "AppId is invalid". -/
theorem tamperedRoundTrip_first_block (P : Crypto) (hP : P.Lawful) (s : server)
    (hk : s.aesKey.length = 16 ∨ s.aesKey.length = 32) (hid : IsBytes s.appId)
    (msg : List Nat) (hm : IsBytes msg) (hl : msg.length ≤ 1000000)
    (intn : Nat → Nat) (iv1 iv2 : List Nat) (h1 : IsBlock iv1) (h2 : IsBlock iv2)
    (timeStamp nonce : List Nat) (i j : Nat) (hi4 : 4 ≤ i) (hi : i < 16) (hj : j < 8) :
    (i < 4 + msg.length →
      tamperedRoundTrip P s intn (some iv1) (some iv2) msg timeStamp nonce i j
          = .ok (flipBit msg (i - 4) j) ∧
        flipBit msg (i - 4) j ≠ msg) ∧
    (4 + msg.length ≤ i → i < 4 + msg.length + s.appId.length →
      tamperedRoundTrip P s intn (some iv1) (some iv2) msg timeStamp nonce i j
        = .err "AppId is invalid") := by
  have hrl := getRandomString_length intn 16
  have hfb : IsBytes (getRandomString intn 16 ++ int32Bytes msg.length ++ msg ++ s.appId) :=
    isBytes_append.mpr ⟨isBytes_append.mpr ⟨isBytes_append.mpr
      ⟨getRandomString_isBytes intn 16, int32Bytes_isBytes _⟩, hm⟩, hid⟩
  have key : ∀ body tail : List Nat, body.length = msg.length →
      16 + i < (getRandomString intn 16 ++ int32Bytes msg.length ++ msg ++ s.appId).length →
      flipBit (int32Bytes msg.length ++ msg ++ s.appId) i j
        = int32Bytes msg.length ++ body ++ tail →
      tamperedRoundTrip P s intn (some iv1) (some iv2) msg timeStamp nonce i j
        = if tail = s.appId then .ok body else .err "AppId is invalid" := by
    intro body tail hbl hlen hflip
    obtain ⟨ct, g, pad, he, hct, hg, hd⟩ := aesDecrypt_flipBit P hP s.aesKey hk iv1 iv2 _ h1 h2
      hfb i j hi hj hlen
    rw [frame_drop _ _ _ _ hrl, hflip, ← List.append_assoc, ← List.append_assoc, ← hbl] at hd
    rw [tamperedRoundTrip_of_aesEncrypt P s intn _ _ msg timeStamp nonce ct i j hct he,
      decryptMsg_base64Encode P s _ _ (flipBit_isBytes ct i j hct hj) _ hd]
    exact decryptMsgFrame_frame s.appId g body tail pad hg (by omega)
  constructor
  · intro hip
    have hne := flipBit_ne msg (i - 4) j (by omega)
    refine ⟨?_, hne⟩
    rw [key (flipBit msg (i - 4) j) s.appId (flipBit_length _ _ _)
      (by simp only [List.length_append, hrl, int32Bytes_length]; omega)
      (by
        rw [flipBit_append_left _ _ i j
            (by simp only [List.length_append, int32Bytes_length]; omega),
          flipBit_append_right _ _ i j (by rw [int32Bytes_length]; exact hi4),
          int32Bytes_length])]
    simp
  · intro h3 h4
    have hne := flipBit_ne s.appId (i - (4 + msg.length)) j (by omega)
    rw [key msg (flipBit s.appId (i - (4 + msg.length)) j) rfl
      (by simp only [List.length_append, hrl, int32Bytes_length]; omega)
      (by
        rw [flipBit_append_right _ _ i j
            (by simp only [List.length_append, int32Bytes_length]; omega)]
        simp only [List.length_append, int32Bytes_length])]
    simp [hne]

/-- C2, witness: on the example server, a flip at offset 4 returns the payload with that bit
flipped and a flip at offset 9 (in the identifier) returns the identifier error. -/
theorem tamperedRoundTrip_first_block_witness :
    (tamperedRoundTrip toyCrypto exampleServer (fun i => 7 * i)
        (some (List.replicate 16 1)) (some (List.replicate 16 2)) (ascii "hello")
        (ascii "1409304348") (ascii "tmp") 4 0 = .ok (flipBit (ascii "hello") (4 - 4) 0) ∧
      flipBit (ascii "hello") (4 - 4) 0 ≠ ascii "hello") ∧
    tamperedRoundTrip toyCrypto exampleServer (fun i => 7 * i)
        (some (List.replicate 16 1)) (some (List.replicate 16 2)) (ascii "hello")
        (ascii "1409304348") (ascii "tmp") 9 0 = .err "AppId is invalid" :=
  ⟨(tamperedRoundTrip_first_block toyCrypto toyCrypto_lawful exampleServer (Or.inr rfl)
      (by decide) (ascii "hello") (by decide) (by decide) (fun i => 7 * i) _ _
      (isBlock_replicate 1 (by norm_num)) (isBlock_replicate 2 (by norm_num))
      (ascii "1409304348") (ascii "tmp") 4 0 (by decide) (by decide) (by decide)).1
      (by decide),
    (tamperedRoundTrip_first_block toyCrypto toyCrypto_lawful exampleServer (Or.inr rfl)
      (by decide) (ascii "hello") (by decide) (by decide) (fun i => 7 * i) _ _
      (isBlock_replicate 1 (by norm_num)) (isBlock_replicate 2 (by norm_num))
      (ascii "1409304348") (ascii "tmp") 9 0 (by decide) (by decide) (by decide)).2
      (by decide) (by decide)⟩

/-- On a string that decodes and decrypts to `buf`, `decryptMsg` is the frame check of `buf`. -/
theorem decryptMsg_of_aesDecrypt (P : Crypto) (s : server) (iv : Option (List Nat))
    (msg aesMsg : List Nat) (buf : Slice) (hdec : base64Decode msg = some aesMsg)
    (hbuf : aesDecrypt P iv aesMsg s.aesKey = .ok buf) :
    decryptMsg P s iv msg = decryptMsgFrame s.appId buf := by
  simp only [decryptMsg, hdec, hbuf]

/-- The frame check on a buffer that holds the payload it announces. For every decrypted,
unpadded buffer `buf` of capacity at least 20, `decryptMsg` returns the length error if the
4-byte big-endian length at offsets 16..19 is negative or greater than 1,000,000; when the
length is in range and the buffer holds at least `20 + length` bytes, it returns the
identifier error if the bytes following the payload are not exactly `appId` and otherwise
returns `buf[20 : 20+length]`; and every successful result implies that the length is within
`[0, 1,000,000]`, that the trailing bytes equal `appId` and that the result is
`buf[20 : 20+length]`. -/
theorem decryptMsg_frame_check (P : Crypto) (s : server) (iv : Option (List Nat))
    (msg aesMsg : List Nat) (buf : Slice) (hdec : base64Decode msg = some aesMsg)
    (hbuf : aesDecrypt P iv aesMsg s.aesKey = .ok buf) (hcap : 20 ≤ buf.cap) :
    ((frameLength buf < 0 ∨ 1000000 < frameLength buf) →
      decryptMsg P s iv msg = .err "AesKey is invalid") ∧
    (0 ≤ frameLength buf → frameLength buf ≤ 1000000 →
      20 + (frameLength buf).toNat ≤ buf.len →
      buf.bytes.drop (20 + (frameLength buf).toNat) ≠ s.appId →
      decryptMsg P s iv msg = .err "AppId is invalid") ∧
    (0 ≤ frameLength buf → frameLength buf ≤ 1000000 →
      20 + (frameLength buf).toNat ≤ buf.len →
      buf.bytes.drop (20 + (frameLength buf).toNat) = s.appId →
      decryptMsg P s iv msg
        = .ok ((buf.bytes.take (20 + (frameLength buf).toNat)).drop 20)) ∧
    (∀ out, decryptMsg P s iv msg = .ok out →
      0 ≤ frameLength buf ∧ frameLength buf ≤ 1000000 ∧
        buf.bytes.drop (20 + (frameLength buf).toNat) = s.appId ∧
        out = (buf.bytes.take (20 + (frameLength buf).toNat)).drop 20) := by
  rw [decryptMsg_of_aesDecrypt P s iv msg aesMsg buf hdec hbuf]
  have htake : ∀ n, n ≤ buf.len → buf.bytes.take n = buf.arr.take n := by
    intro n hn
    simp only [Slice.bytes, List.take_take, min_eq_left hn]
  unfold decryptMsgFrame
  simp only []
  generalize frameLength buf = L
  rw [if_neg (by omega)]
  refine ⟨?_, ?_, ?_, ?_⟩
  · intro h
    rw [if_pos (by rcases h with h | h; exact Or.inl h; exact Or.inr h)]
  · intro h0 h1 h2 h3
    rw [if_neg (by omega), if_neg (by omega), if_pos h3]
  · intro h0 h1 h2 h3
    rw [if_neg (by omega), if_neg (by omega), if_neg (by simpa using h3), htake _ h2]
  · intro out ho
    by_cases hr : L < 0 ∨ L > 1000000
    · rw [if_pos hr] at ho; cases ho
    · rw [if_neg hr] at ho
      by_cases hlen : buf.len < 20 + L.toNat
      · rw [if_pos hlen] at ho; cases ho
      · rw [if_neg hlen] at ho
        by_cases hid : buf.bytes.drop (20 + L.toNat) ≠ s.appId
        · rw [if_pos hid] at ho; cases ho
        · rw [if_neg hid] at ho
          have hid2 : buf.bytes.drop (20 + L.toNat) = s.appId := by
            simpa using hid
          refine ⟨by omega, by omega, hid2, ?_⟩
          rw [htake _ (by omega)]
          exact (Res.ok.inj ho).symm

/-- C3, the code at the failing input: `decryptMsg` does not fail exactly on a bad frame.
For every decrypted, unpadded buffer whose length field at offsets 16..19 is within
`[0, 1,000,000]` but which holds fewer than `20 + length` bytes, `decryptMsg` neither returns
an error nor a payload: the slice expression `buf[20+msgLen:]` panics; and a buffer of
capacity below 20 panics on `buf[16:20]`. -/
theorem decryptMsg_short_frame_panics (P : Crypto) (s : server) (iv : Option (List Nat))
    (msg aesMsg : List Nat) (buf : Slice) (hdec : base64Decode msg = some aesMsg)
    (hbuf : aesDecrypt P iv aesMsg s.aesKey = .ok buf) :
    (buf.cap < 20 → decryptMsg P s iv msg = .panicked "slice bounds out of range [:20]") ∧
    (20 ≤ buf.cap → 0 ≤ frameLength buf → frameLength buf ≤ 1000000 →
      buf.len < 20 + (frameLength buf).toNat →
      decryptMsg P s iv msg = .panicked "slice bounds out of range") := by
  rw [decryptMsg_of_aesDecrypt P s iv msg aesMsg buf hdec hbuf]
  unfold decryptMsgFrame
  simp only []
  generalize frameLength buf = L
  constructor
  · intro hcap
    rw [if_pos hcap]
  · intro hcap h0 h1 hshort
    rw [if_neg (by omega), if_neg (by omega), if_pos hshort]

/-- C3, witness: an envelope whose decrypted, unpadded buffer has 22 bytes and the length
field 5; `decryptMsg` panics on `buf[25:]`. -/
theorem decryptMsg_short_frame_panics_witness :
    decryptMsg toyCrypto exampleServer (some (List.replicate 16 3))
        (ascii "hoWEg4KBWVhXVlVUU1JRUHp7eHl+f3x9cnMICqakpaY=")
      = .panicked "slice bounds out of range" :=
  (decryptMsg_short_frame_panics toyCrypto exampleServer (some (List.replicate 16 3))
    (ascii "hoWEg4KBWVhXVlVUU1JRUHp7eHl+f3x9cnMICqakpaY=")
    [134, 133, 132, 131, 130, 129, 89, 88, 87, 86, 85, 84, 83, 82, 81, 80, 122, 123, 120, 121,
      126, 127, 124, 125, 114, 115, 8, 10, 166, 164, 165, 166]
    ⟨[51, 50, 49, 48, 55, 54, 53, 52, 59, 58, 98, 97, 96, 103, 102, 101, 0, 0, 0, 5,
      104, 105, 10, 10, 10, 10, 10, 10, 10, 10, 10, 10], 22⟩
    (by decide) (by decide)).2 (by decide) (by decide) (by decide) (by decide)

/-- C4, the code at the failing inputs: under every key `aes.NewCipher` accepts, `decryptMsg`
panics on the empty string (index `-1` in `pkcs7UnPad`) and on `"AAAA"`, which decodes to
three bytes (`CryptBlocks` on a partial block); it does not return an error value. -/
theorem decryptMsg_panics (P : Crypto) (s : server) (v : List Nat)
    (hk : validKeySize s.aesKey.length = true) :
    decryptMsg P s (some v) [] = .panicked "index out of range [-1]" ∧
    decryptMsg P s (some v) (ascii "AAAA") = .panicked "crypto/cipher: input not full blocks" := by
  constructor
  · simp [decryptMsg, base64Decode, base64DecodeQuanta, aesDecrypt, hk, pkcs7UnPad]
  · have h : base64Decode (ascii "AAAA") = some [0, 0, 0] := by decide
    simp [decryptMsg, h, aesDecrypt, hk]

/-- C4, witness: the two panics on the example server. -/
theorem decryptMsg_panics_witness :
    decryptMsg toyCrypto exampleServer (some (List.replicate 16 3)) []
      = .panicked "index out of range [-1]" ∧
    decryptMsg toyCrypto exampleServer (some (List.replicate 16 3)) (ascii "AAAA")
      = .panicked "crypto/cipher: input not full blocks" :=
  decryptMsg_panics toyCrypto exampleServer (List.replicate 16 3) (by decide)

/-- The envelope of "hello" for the example server passes the frame check. -/
theorem decryptMsg_frame_check_witness :
    decryptMsg toyCrypto exampleServer (some (List.replicate 16 3))
        (ascii "hoWEg4KBWVhXVlVUU1JRUHGFgYGFTUFYVFUECqakpaY=") = .ok (ascii "hello") :=
  (decryptMsg_frame_check toyCrypto exampleServer (some (List.replicate 16 3))
    (ascii "hoWEg4KBWVhXVlVUU1JRUHGFgYGFTUFYVFUECqakpaY=")
    [134, 133, 132, 131, 130, 129, 89, 88, 87, 86, 85, 84, 83, 82, 81, 80, 113, 133, 129, 129,
      133, 77, 65, 88, 84, 85, 4, 10, 166, 164, 165, 166]
    ⟨[51, 50, 49, 48, 55, 54, 53, 52, 59, 58, 98, 97, 96, 103, 102, 101, 0, 0, 0, 5, 104, 101,
      108, 108, 111, 119, 120, 49, 50, 51, 52, 1], 31⟩
    (by decide) (by decide) (by decide)).2.2.1 (by decide) (by decide) (by decide) (by decide)

theorem strLe_total : ∀ a b : List Nat, strLe a b = true ∨ strLe b a = true
  | [], _ => Or.inl rfl
  | _ :: _, [] => Or.inr rfl
  | x :: xs, y :: ys => by
    simp only [strLe]
    rcases Nat.lt_trichotomy x y with h | h | h
    · left; simp [h]
    · subst h; simpa using strLe_total xs ys
    · right; simp [h]

theorem strLe_antisymm : ∀ a b : List Nat, strLe a b = true → strLe b a = true → a = b
  | [], [], _, _ => rfl
  | [], _ :: _, _, h => by simp [strLe] at h
  | _ :: _, [], h, _ => by simp [strLe] at h
  | x :: xs, y :: ys, h1, h2 => by
    simp only [strLe] at h1 h2
    rcases Nat.lt_trichotomy x y with h | h | h
    · simp [h, Nat.lt_asymm h] at h2
    · subst h
      simp only [lt_self_iff_false, if_false] at h1 h2
      rw [strLe_antisymm xs ys h1 h2]
    · simp [h, Nat.lt_asymm h] at h1

theorem strLe_trans : ∀ a b c : List Nat, strLe a b = true → strLe b c = true →
    strLe a c = true
  | [], _, _, _, _ => rfl
  | _ :: _, [], _, h, _ => by simp [strLe] at h
  | _ :: _, _ :: _, [], _, h => by simp [strLe] at h
  | x :: xs, y :: ys, z :: zs, h1, h2 => by
    simp only [strLe] at h1 h2 ⊢
    rcases Nat.lt_trichotomy x y with h | h | h
    · rcases Nat.lt_trichotomy y z with h' | h' | h'
      · simp [Nat.lt_trans h h']
      · subst h'; simp [h]
      · simp [h', Nat.lt_asymm h'] at h2
    · subst h
      simp only [lt_self_iff_false, if_false] at h1
      rcases Nat.lt_trichotomy x z with h' | h' | h'
      · simp [h']
      · subst h'
        simp only [lt_self_iff_false, if_false] at h2 ⊢
        exact strLe_trans xs ys zs h1 h2
      · simp [h', Nat.lt_asymm h'] at h2
    · simp [h, Nat.lt_asymm h] at h1

/-- The result of `sort.Strings` is the one increasing arrangement of its input. -/
theorem sortStrings_sorted_perm (l : List (List Nat)) :
    (sortStrings l).Sorted (fun a b => strLe a b = true) ∧ (sortStrings l).Perm l := by
  haveI : IsTotal (List Nat) (fun a b => strLe a b = true) := ⟨strLe_total⟩
  haveI : IsTrans (List Nat) (fun a b => strLe a b = true) := ⟨strLe_trans⟩
  exact ⟨List.sorted_insertionSort _ l, List.perm_insertionSort _ l⟩

theorem sortStrings_perm (l1 l2 : List (List Nat)) (h : l1.Perm l2) :
    sortStrings l1 = sortStrings l2 := by
  haveI : IsAntisymm (List Nat) (fun a b => strLe a b = true) := ⟨strLe_antisymm⟩
  have h1 := sortStrings_sorted_perm l1
  have h2 := sortStrings_sorted_perm l2
  exact List.eq_of_perm_of_sorted (h1.2.trans (h.trans h2.2.symm)) h1.1 h2.1

/-- C5: signature order-independence. For every list of strings and every permutation of
it, `sortSha1` returns the same digest, and that digest is the hex rendering of the hash of
the concatenation, without separators, of the lexicographically sorted inputs. -/
theorem sortSha1_perm (P : Crypto) (l1 l2 : List (List Nat)) (h : l1.Perm l2) :
    sortSha1 P l1 = sortSha1 P l2 ∧
      ∃ sorted : List (List Nat), sorted.Sorted (fun a b => strLe a b = true) ∧
        sorted.Perm l1 ∧ sortSha1 P l1 = hexString (P.sha1 sorted.flatten) := by
  refine ⟨?_, sortStrings l1, (sortStrings_sorted_perm l1).1, (sortStrings_sorted_perm l1).2,
    rfl⟩
  unfold sortSha1
  rw [sortStrings_perm l1 l2 h]

/-- C5, witness: `sortSha1(a, b, c) = sortSha1(c, a, b)`. -/
theorem sortSha1_perm_witness :
    sortSha1 toyCrypto [ascii "a", ascii "b", ascii "c"]
      = sortSha1 toyCrypto [ascii "c", ascii "a", ascii "b"] :=
  (sortSha1_perm toyCrypto [ascii "a", ascii "b", ascii "c"] [ascii "c", ascii "a", ascii "b"]
    (by decide)).1

/-- Whatever the request, a call of `VerifyURL` that returns hands back a non-nil context. -/
theorem VerifyURL_ctx_isSome (P : Crypto) (D : Decoders) (s : server)
    (iv : Option (List Nat)) (r : Request) (res : VerifyResult)
    (h : VerifyURL P D s iv r = .ok res) : res.ctx.isSome = true := by
  unfold VerifyURL at h
  split at h
  · rename_i ctx echostr _
    unfold VerifyURL.check at h
    repeat' split at h
    all_goals first
      | (cases Res.ok.inj h; rfl)
      | cases h
  · cases h
  · cases h

/-- C6, the code on a request whose signature does not match: whenever the head of
`VerifyURL` has produced the context `ctx` and the signed string, and the supplied signature
differs from `sortSha1(token, timestamp, nonce, echostr)`, `VerifyURL` does not decrypt and
writes nothing, but it returns the non-nil pointer `ctx` to the caller; and a non-nil
context is what every returning call of `VerifyURL` hands back, accepted or not, so the
result does not tell the rejection. -/
theorem VerifyURL_mismatch_returns_ctx (P : Crypto) (D : Decoders) (s : server)
    (iv : Option (List Nat)) (r : Request) (ctx : context) (echostr : List Nat)
    (hread : VerifyURL.read D s r = .ok (ctx, echostr))
    (hsig : signatureMismatch P s r.signature ctx.timestamp ctx.nonce echostr = true) :
    VerifyURL P D s iv r = .ok ⟨some ctx, [], false⟩ ∧
      ∀ (iv2 : Option (List Nat)) (r2 : Request) (res : VerifyResult),
        VerifyURL P D s iv2 r2 = .ok res → res.ctx.isSome = true := by
  constructor
  · unfold VerifyURL
    rw [hread]
    simp only [VerifyURL.check]
    rw [if_pos hsig]
  · intro iv2 r2 res h
    exact VerifyURL_ctx_isSome P D s iv2 r2 res h

/-- C6, witness: a plaintext-mode POST with the signature "bad" comes back with a context
whose `Msg` already holds the decoded body. -/
theorem VerifyURL_mismatch_returns_ctx_witness :
    VerifyURL toyCrypto toyDecoders plainServer none badPost
      = .ok ⟨some
          { timestamp := ascii "1409304348"
            nonce := ascii "tmp"
            Msg := { WxMsg.zero with Content := ascii "<xml><Content>pay</Content></xml>" }
            hasReply := false }, [], false⟩ :=
  (VerifyURL_mismatch_returns_ctx toyCrypto toyDecoders plainServer none badPost _ []
    (by decide) (by decide)).1

/-- Under a 16- or 32-byte key `encryptMsg` returns a reply, whatever the draws. -/
theorem encryptMsg_returns (P : Crypto) (s : server) (intn : Nat → Nat)
    (iv : Option (List Nat)) (msg timeStamp nonce : List Nat)
    (hk : s.aesKey.length = 16 ∨ s.aesKey.length = 32) :
    ∃ re, encryptMsg P s intn iv msg timeStamp nonce = .ok re := by
  cases iv with
  | some v =>
    obtain ⟨p, n, _, _, _, he⟩ := aesEncrypt_ok P s.aesKey hk v
      (getRandomString intn 16 ++ int32Bytes msg.length ++ msg ++ s.appId)
    exact ⟨_, encryptMsg_of_aesEncrypt P s intn _ msg timeStamp nonce _ he⟩
  | none =>
    have hbs : ¬ (s.aesKey.length < 2 ∨ s.aesKey.length ≥ 256) := by
      rcases hk with h | h <;> rw [h] <;> omega
    have he : aesEncrypt P none
        (getRandomString intn 16 ++ int32Bytes msg.length ++ msg ++ s.appId) s.aesKey
        = .err "rand: read failed" := by
      simp only [aesEncrypt, pkcs7Pad, if_neg hbs, validKeySize_of _ hk]
      simp
    exact ⟨⟨base64Encode [], sortSha1 P [s.token, timeStamp, nonce, base64Encode []],
      timeStamp, nonce⟩, by simp only [encryptMsg, he]⟩

/-- C7: the outbound reply is self-consistent. For every server, message, timestamp and
nonce, every `wxRespEnc` returned by `encryptMsg` carries the given timestamp and nonce
unchanged and a `MsgSignature` equal to `sortSha1(token, timestamp, nonce, Encrypt)`, so
that the signature test of `VerifyURL` over these four strings does not refuse it; and on
a server whose AES key has 16 or 32 bytes `encryptMsg` does return such a reply. -/
theorem encryptMsg_signature (P : Crypto) (s : server) (intn : Nat → Nat)
    (iv : Option (List Nat)) (msg timeStamp nonce : List Nat) :
    (∀ re, encryptMsg P s intn iv msg timeStamp nonce = .ok re →
      re.TimeStamp = timeStamp ∧ re.Nonce = nonce ∧
      re.MsgSignature = sortSha1 P [s.token, timeStamp, nonce, re.Encrypt] ∧
      signatureMismatch P s re.MsgSignature re.TimeStamp re.Nonce re.Encrypt = false) ∧
    ((s.aesKey.length = 16 ∨ s.aesKey.length = 32) →
      ∃ re, encryptMsg P s intn iv msg timeStamp nonce = .ok re) := by
  refine ⟨?_, encryptMsg_returns P s intn iv msg timeStamp nonce⟩
  intro re hre
  unfold encryptMsg at hre
  simp only [] at hre
  split at hre
  · cases hre
  · cases Res.ok.inj hre
    simp [signatureMismatch]

/-- C7, witness: token "token1", timestamp "1409304348", nonce "tmp", plaintext "hello". -/
theorem encryptMsg_signature_witness :
    ∃ re, encryptMsg toyCrypto exampleServer (fun i => 7 * i) (some (List.replicate 16 1))
        (ascii "hello") (ascii "1409304348") (ascii "tmp") = .ok re ∧
      re.TimeStamp = ascii "1409304348" ∧ re.Nonce = ascii "tmp" ∧
      re.MsgSignature
        = sortSha1 toyCrypto [ascii "token1", ascii "1409304348", ascii "tmp", re.Encrypt] ∧
      signatureMismatch toyCrypto exampleServer re.MsgSignature re.TimeStamp re.Nonce
        re.Encrypt = false := by
  have h := encryptMsg_signature toyCrypto exampleServer (fun i => 7 * i)
    (some (List.replicate 16 1)) (ascii "hello") (ascii "1409304348") (ascii "tmp")
  obtain ⟨re, hre⟩ := h.2 (Or.inr rfl)
  exact ⟨re, hre, h.1 re hre⟩

/-- One call of `getAccessTokenFromNet` issues exactly one grant request. -/
theorem getAccessTokenFromNet_requests (W : World) (st : TokenState) :
    (getAccessTokenFromNet W st).2.requests = st.requests + 1 := by
  unfold getAccessTokenFromNet
  split
  · rfl
  · split <;> rfl

/-- The call `getAccessTokenFromNet` returns no error exactly on an accepted reply. -/
theorem getAccessTokenFromNet_none_iff (W : World) (st : TokenState) :
    (getAccessTokenFromNet W st).1 = none ↔ (W.grant st.requests).accepted = true := by
  unfold getAccessTokenFromNet
  cases hg : W.grant st.requests with
  | failed e => simp [GrantReply.accepted]
  | decoded tok =>
    by_cases h : tok.ErrCode > 0
    · have h0 : tok.ErrCode ≠ 0 := by omega
      simp [GrantReply.accepted, h, WxErr.Error, h0]
    · simp [GrantReply.accepted, h]

/-- The retry loop with `n` rounds issues between one and `n` requests (none for `n = 0`). -/
theorem retry_requests (W : World) : ∀ (n : Nat) (e : Option GoErr) (st : TokenState),
    (getAccessToken.retry W n e st).2.requests ≤ st.requests + n ∧
      st.requests ≤ (getAccessToken.retry W n e st).2.requests ∧
      (0 < n → st.requests + 1 ≤ (getAccessToken.retry W n e st).2.requests)
  | 0, e, st => by simp [getAccessToken.retry]
  | n + 1, e, st => by
    have hr := getAccessTokenFromNet_requests W st
    unfold getAccessToken.retry
    cases hq : getAccessTokenFromNet W st with
    | mk e1 st1 =>
      rw [hq] at hr
      obtain ⟨a1, r1, c1, s1⟩ := st1
      have hr1 : r1 = st.requests + 1 := hr
      subst hr1
      cases e1 with
      | none => simp only; omega
      | some e2 =>
        have ih := retry_requests W n (some e2) ⟨a1, st.requests + 1, c1, s1 + 1⟩
        simp only at ih ⊢
        omega

theorem refresh_requests (W : World) (st : TokenState) :
    st.requests + 1 ≤ (getAccessToken.refresh W st).2.requests := by
  have h := (retry_requests W 3 none st).2.2 (by norm_num)
  unfold getAccessToken.refresh
  split
  · rename_i heq; rw [heq] at h; exact h
  · rename_i st1 heq
    rw [heq] at h
    split <;> exact h


/-- A rejected reply: `getAccessTokenFromNet` returns an error, counts the request and
leaves the credential alone. -/
theorem getAccessTokenFromNet_rejected (W : World) (st : TokenState)
    (h : (W.grant st.requests).accepted = false) :
    ∃ e, getAccessTokenFromNet W st = (some e, { st with requests := st.requests + 1 }) := by
  unfold getAccessTokenFromNet
  cases hg : W.grant st.requests with
  | failed e0 => exact ⟨_, rfl⟩
  | decoded tok =>
    rw [hg] at h
    have hpos : tok.ErrCode > 0 := by simpa [GrantReply.accepted] using h
    have h0 : tok.ErrCode ≠ 0 := by omega
    exact ⟨.wx tok.ErrCode tok.ErrMsg, by simp [hpos, WxErr.Error, h0]⟩

/-- An accepted reply: `getAccessTokenFromNet` returns nil and stores the reply with the
expiry instant `now + ExpiresIn - 5`. -/
theorem getAccessTokenFromNet_accepted (W : World) (st : TokenState)
    (h : (W.grant st.requests).accepted = true) :
    ∃ tok, W.grant st.requests = .decoded tok ∧
      getAccessTokenFromNet W st
        = (none,
          { st with
            accessToken := some
              { tok with ExpiresIn := wrapInt64 (W.clock st.clockReads + tok.ExpiresIn - 5) }
            requests := st.requests + 1
            clockReads := st.clockReads + 1 }) := by
  unfold getAccessTokenFromNet
  cases hg : W.grant st.requests with
  | failed e0 => rw [hg] at h; simp [GrantReply.accepted] at h
  | decoded tok =>
    rw [hg] at h
    have hpos : ¬ tok.ErrCode > 0 := by simpa [GrantReply.accepted] using h
    exact ⟨tok, rfl, by simp [hpos]⟩

/-- The retry loop: it stops at the first accepted reply among its `n` rounds, having stored
that reply, and after `n` rejected replies it ends with an error and the old credential. -/
theorem retry_spec (W : World) : ∀ (n : Nat) (e : Option GoErr) (st : TokenState),
    (∀ k, k < n → (∀ j, j < k → (W.grant (st.requests + j)).accepted = false) →
      (W.grant (st.requests + k)).accepted = true →
      ∃ tok, W.grant (st.requests + k) = .decoded tok ∧
        (getAccessToken.retry W n e st).1 = none ∧
        (getAccessToken.retry W n e st).2.requests = st.requests + k + 1 ∧
        ∃ t, (getAccessToken.retry W n e st).2.accessToken = some t ∧
          t.AccessToken = tok.AccessToken) ∧
    ((∀ j, j < n → (W.grant (st.requests + j)).accepted = false) → (e ≠ none ∨ 0 < n) →
      (getAccessToken.retry W n e st).1 ≠ none ∧
        (getAccessToken.retry W n e st).2.requests = st.requests + n ∧
        (getAccessToken.retry W n e st).2.accessToken = st.accessToken)
  | 0, e, st => by
    refine ⟨fun k hk => absurd hk (Nat.not_lt_zero k), ?_⟩
    intro _ he
    rcases he with he | he
    · exact ⟨he, rfl, rfl⟩
    · exact absurd he (Nat.lt_irrefl 0)
  | n + 1, e, st => by
    cases hacc : (W.grant st.requests).accepted with
    | true =>
      obtain ⟨tok, hg, hnet⟩ := getAccessTokenFromNet_accepted W st hacc
      have hret : getAccessToken.retry W (n + 1) e st
          = (none,
            { st with
              accessToken := some
                { tok with ExpiresIn := wrapInt64 (W.clock st.clockReads + tok.ExpiresIn - 5) }
              requests := st.requests + 1
              clockReads := st.clockReads + 1 }) := by
        rw [getAccessToken.retry, hnet]
      constructor
      · intro k _ hfail _
        cases k with
        | zero =>
          rw [hret]
          exact ⟨tok, hg, rfl, rfl, _, rfl, rfl⟩
        | succ k =>
          have := hfail 0 (Nat.succ_pos k)
          rw [Nat.add_zero, hacc] at this
          cases this
      · intro hall _
        have := hall 0 (Nat.succ_pos n)
        rw [Nat.add_zero, hacc] at this
        cases this
    | false =>
      obtain ⟨e1, hnet⟩ := getAccessTokenFromNet_rejected W st hacc
      have hret : getAccessToken.retry W (n + 1) e st
          = getAccessToken.retry W n (some e1)
              ⟨st.accessToken, st.requests + 1, st.clockReads, st.sleeps + 1⟩ := by
        rw [getAccessToken.retry, hnet]
      have ih := retry_spec W n (some e1)
        ⟨st.accessToken, st.requests + 1, st.clockReads, st.sleeps + 1⟩
      simp only at ih
      rw [hret]
      constructor
      · intro k hk hfail hok
        cases k with
        | zero => rw [Nat.add_zero, hacc] at hok; cases hok
        | succ k =>
          have h1 := ih.1 k (by omega)
            (fun j hj => by
              have := hfail (j + 1) (by omega)
              rwa [show st.requests + (j + 1) = st.requests + 1 + j by omega] at this)
            (by rwa [show st.requests + (k + 1) = st.requests + 1 + k by omega] at hok)
          rw [show st.requests + 1 + k = st.requests + (k + 1) by omega] at h1
          obtain ⟨tok, h2, h3, h4, h5⟩ := h1
          exact ⟨tok, h2, h3, by omega, h5⟩
      · intro hall _
        have h1 := ih.2
          (fun j hj => by
            have := hall (j + 1) (by omega)
            rwa [show st.requests + (j + 1) = st.requests + 1 + j by omega] at this)
          (Or.inl (by simp))
        exact ⟨h1.1, by omega, h1.2.2⟩

/-- The refreshing branch: at most three requests, the token of the first accepted reply,
the empty string after three rejected ones. -/
theorem refresh_spec (W : World) (st : TokenState) :
    (getAccessToken.refresh W st).2.requests ≤ st.requests + 3 ∧
    (∀ k, k < 3 → (∀ j, j < k → (W.grant (st.requests + j)).accepted = false) →
      (W.grant (st.requests + k)).accepted = true →
      (getAccessToken.refresh W st).2.requests = st.requests + k + 1 ∧
        ∃ tok, W.grant (st.requests + k) = .decoded tok ∧
          (getAccessToken.refresh W st).1 = .ok tok.AccessToken) ∧
    ((∀ j, j < 3 → (W.grant (st.requests + j)).accepted = false) →
      (getAccessToken.refresh W st).1 = .ok [] ∧
        (getAccessToken.refresh W st).2.requests = st.requests + 3) := by
  have hspec := retry_spec W 3 none st
  have hreq := (retry_requests W 3 none st).1
  unfold getAccessToken.refresh
  cases hq : getAccessToken.retry W 3 none st with
  | mk e1 st1 =>
    rw [hq] at hspec hreq
    simp only at hspec hreq
    refine ⟨?_, ?_, ?_⟩
    · cases e1 with
      | some e2 => exact hreq
      | none => simp only; split <;> exact hreq
    · intro k hk hfail hok
      obtain ⟨tok, h2, h3, h4, t, h5, h6⟩ := hspec.1 k hk hfail hok
      subst h3
      simp only [h5]
      exact ⟨h4, tok, h2, by rw [h6]⟩
    · intro hall
      obtain ⟨h1, h2, _⟩ := hspec.2 hall (Or.inr (by norm_num))
      cases e1 with
      | some e2 => exact ⟨rfl, h2⟩
      | none => exact absurd rfl h1

/-- C8, counterexample: a cached credential with `expiresAt == now` (both 100) does not
trigger a refresh; the cached token is returned and no grant request is issued. -/
theorem getAccessToken_expiry_counterexample :
    getAccessToken ⟨fun _ => .failed "unreachable", fun _ => 100⟩
        ⟨some { ErrCode := 0, ErrMsg := [], AccessToken := ascii "tok", ExpiresIn := 100 },
          0, 0, 0⟩
      = (.ok (ascii "tok"),
        ⟨some { ErrCode := 0, ErrMsg := [], AccessToken := ascii "tok", ExpiresIn := 100 },
          0, 1, 0⟩) := by
  decide

/-- C8, amended: credential expiry boundary. For every cached credential and current time
`now`, `getAccessToken` issues no grant request if and only if `now ≤ expiresAt`, and in
that case it returns the cached token and keeps the credential; a credential with
`expiresAt == now` is therefore still served from the cache, and a refresh is triggered
only once `expiresAt < now`. -/
theorem getAccessToken_expiry (W : World) (st : TokenState) (tok : accessToken)
    (hst : st.accessToken = some tok) :
    ((getAccessToken W st).2.requests = st.requests ↔ W.clock st.clockReads ≤ tok.ExpiresIn) ∧
    (W.clock st.clockReads ≤ tok.ExpiresIn →
      (getAccessToken W st).1 = .ok tok.AccessToken ∧
        (getAccessToken W st).2.accessToken = some tok) := by
  obtain ⟨a, r, c, sl⟩ := st
  simp only at hst
  subst hst
  unfold getAccessToken
  simp only
  by_cases h : tok.ExpiresIn < W.clock c
  · rw [if_pos h]
    have hr := refresh_requests W ⟨some tok, r, c + 1, sl⟩
    simp only at hr
    constructor
    · constructor
      · intro he; omega
      · intro hle; omega
    · intro hle; omega
  · rw [if_neg h]
    simp only [and_self, true_and, implies_true, and_true]
    constructor
    · intro _; omega
    · intro _; trivial

/-- C8, witness: `now = 100`, `expiresAt = 101`. -/
theorem getAccessToken_expiry_witness :
    ((getAccessToken ⟨fun _ => .failed "unreachable", fun _ => 100⟩
        ⟨some { ErrCode := 0, ErrMsg := [], AccessToken := ascii "tok", ExpiresIn := 101 },
          0, 0, 0⟩).2.requests = 0 ↔ (100 : Int) ≤ 101) ∧
    ((100 : Int) ≤ 101 →
      (getAccessToken ⟨fun _ => .failed "unreachable", fun _ => 100⟩
        ⟨some { ErrCode := 0, ErrMsg := [], AccessToken := ascii "tok", ExpiresIn := 101 },
          0, 0, 0⟩).1 = .ok (ascii "tok") ∧
      (getAccessToken ⟨fun _ => .failed "unreachable", fun _ => 100⟩
        ⟨some { ErrCode := 0, ErrMsg := [], AccessToken := ascii "tok", ExpiresIn := 101 },
          0, 0, 0⟩).2.accessToken
        = some { ErrCode := 0, ErrMsg := [], AccessToken := ascii "tok", ExpiresIn := 101 }) :=
  getAccessToken_expiry ⟨fun _ => .failed "unreachable", fun _ => 100⟩
    ⟨some { ErrCode := 0, ErrMsg := [], AccessToken := ascii "tok", ExpiresIn := 101 }, 0, 0, 0⟩
    { ErrCode := 0, ErrMsg := [], AccessToken := ascii "tok", ExpiresIn := 101 } rfl

/-- Bounded retry, relative to what `getAccessTokenFromNet` accepts. For every state in which
a refresh is needed (no credential, or an expired one) and every sequence of grant outcomes,
`getAccessToken` issues at most 3 grant requests; if the `k`-th of them (`k < 3`) is the
first that `getAccessTokenFromNet` accepts, exactly `k + 1` requests are issued and the
token of that reply is returned; and if the first 3 are all rejected, the empty string is
returned after exactly 3 requests. -/
theorem getAccessToken_bounded_retry (W : World) (st : TokenState)
    (hneed : st.accessToken = none ∨
      ∃ tok, st.accessToken = some tok ∧ tok.ExpiresIn < W.clock st.clockReads) :
    (getAccessToken W st).2.requests ≤ st.requests + 3 ∧
    (∀ k, k < 3 → (∀ j, j < k → (W.grant (st.requests + j)).accepted = false) →
      (W.grant (st.requests + k)).accepted = true →
      (getAccessToken W st).2.requests = st.requests + k + 1 ∧
        ∃ tok, W.grant (st.requests + k) = .decoded tok ∧
          (getAccessToken W st).1 = .ok tok.AccessToken) ∧
    ((∀ j, j < 3 → (W.grant (st.requests + j)).accepted = false) →
      (getAccessToken W st).1 = .ok [] ∧
        (getAccessToken W st).2.requests = st.requests + 3) := by
  obtain ⟨a, r, c, sl⟩ := st
  rcases hneed with h | ⟨tok, h, hexp⟩
  · simp only at h
    subst h
    have e : getAccessToken W ⟨none, r, c, sl⟩ = getAccessToken.refresh W ⟨none, r, c, sl⟩ := rfl
    rw [e]
    exact refresh_spec W ⟨none, r, c, sl⟩
  · simp only at h hexp
    subst h
    have e : getAccessToken W ⟨some tok, r, c, sl⟩
        = getAccessToken.refresh W ⟨some tok, r, c + 1, sl⟩ := by
      simp only [getAccessToken, if_pos hexp]
    rw [e]
    exact refresh_spec W ⟨some tok, r, c + 1, sl⟩

/-- Example: no credential, the first two grant requests fail and the third is accepted;
three requests are issued and the granted token is returned. -/
theorem getAccessToken_bounded_retry_witness :
    (getAccessToken
        ⟨fun k => if k = 2 then
            .decoded { ErrCode := 0, ErrMsg := [], AccessToken := ascii "tok", ExpiresIn := 7200 }
          else .failed "timeout", fun _ => 100⟩
        ⟨none, 0, 0, 0⟩).2.requests = 0 + 2 + 1 ∧
      ∃ tok,
        (if 0 + 2 = 2 then
            GrantReply.decoded
              { ErrCode := 0, ErrMsg := [], AccessToken := ascii "tok", ExpiresIn := 7200 }
          else .failed "timeout") = .decoded tok ∧
        (getAccessToken
          ⟨fun k => if k = 2 then
              .decoded
                { ErrCode := 0, ErrMsg := [], AccessToken := ascii "tok", ExpiresIn := 7200 }
            else .failed "timeout", fun _ => 100⟩
          ⟨none, 0, 0, 0⟩).1 = .ok tok.AccessToken :=
  (getAccessToken_bounded_retry
    ⟨fun k => if k = 2 then
        .decoded { ErrCode := 0, ErrMsg := [], AccessToken := ascii "tok", ExpiresIn := 7200 }
      else .failed "timeout", fun _ => 100⟩
    ⟨none, 0, 0, 0⟩ (Or.inl rfl)).2.1 2 (by decide) (by decide) (by decide)

/-- C9, the code at the failing input: when a refresh is needed and the first grant reply
carries a negative `errcode` (an error by `(*WxErr).Error`), `getAccessToken` takes the
attempt for successful: it issues exactly one grant request, does not sleep or retry, and
returns the token field of that reply, whatever the later attempts would have granted. -/
theorem getAccessToken_negative_errcode_stops (W : World) (st : TokenState)
    (tok : accessToken)
    (hneed : st.accessToken = none ∨
      ∃ t, st.accessToken = some t ∧ t.ExpiresIn < W.clock st.clockReads)
    (hg : W.grant st.requests = .decoded tok) (hneg : tok.ErrCode < 0) :
    tok.toWxErr.Error = some (.wx tok.ErrCode tok.ErrMsg) ∧
    (getAccessToken W st).1 = .ok tok.AccessToken ∧
    (getAccessToken W st).2.requests = st.requests + 1 ∧
    (getAccessToken W st).2.sleeps = st.sleeps := by
  have h0 : tok.ErrCode ≠ 0 := by omega
  have hpos : ¬ tok.ErrCode > 0 := by omega
  have hrefresh : ∀ st2 : TokenState, st2.requests = st.requests →
      (getAccessToken.refresh W st2).1 = .ok tok.AccessToken ∧
      (getAccessToken.refresh W st2).2.requests = st2.requests + 1 ∧
      (getAccessToken.refresh W st2).2.sleeps = st2.sleeps := by
    intro st2 hreq
    have hnet : getAccessTokenFromNet W st2
        = (none,
          { st2 with
            accessToken := some
              { tok with ExpiresIn := wrapInt64 (W.clock st2.clockReads + tok.ExpiresIn - 5) }
            requests := st2.requests + 1
            clockReads := st2.clockReads + 1 }) := by
      simp [getAccessTokenFromNet, hreq, hg, hpos]
    simp only [getAccessToken.refresh, getAccessToken.retry, hnet, and_self]
  refine ⟨by simp [WxErr.Error, h0], ?_⟩
  obtain ⟨a, r, c, sl⟩ := st
  rcases hneed with h | ⟨t, h, hexp⟩
  · simp only at h
    subst h
    exact hrefresh ⟨none, r, c, sl⟩ rfl
  · simp only at h hexp
    subst h
    have e : getAccessToken W ⟨some t, r, c, sl⟩
        = getAccessToken.refresh W ⟨some t, r, c + 1, sl⟩ := by
      simp only [getAccessToken, if_pos hexp]
    rw [e]
    exact hrefresh ⟨some t, r, c + 1, sl⟩ rfl

/-- C9, witness: no credential; the grant endpoint answers `errcode = -1` first and would
grant a token on the second and third attempt. One request is issued and the empty string
is returned. -/
theorem getAccessToken_negative_errcode_stops_witness :
    (getAccessToken busyThenGranted ⟨none, 0, 0, 0⟩).1 = .ok [] ∧
    (getAccessToken busyThenGranted ⟨none, 0, 0, 0⟩).2.requests = 0 + 1 ∧
    (getAccessToken busyThenGranted ⟨none, 0, 0, 0⟩).2.sleeps = 0 :=
  (getAccessToken_negative_errcode_stops busyThenGranted ⟨none, 0, 0, 0⟩
    { ErrCode := -1, ErrMsg := ascii "system busy", AccessToken := [], ExpiresIn := 0 }
    (Or.inl rfl) rfl (by decide)).2

/-- C10, the code at the failing input: a grant reply with a negative `errcode`, which
`(*WxErr).Error` reports as an error, makes `getAccessTokenFromNet` return nil and replace
the stored credential by the reply, with the expiry instant `now + expires_in - 5`. -/
theorem getAccessTokenFromNet_negative_errcode (W : World) (st : TokenState)
    (tok : accessToken) (hg : W.grant st.requests = .decoded tok) (hneg : tok.ErrCode < 0) :
    tok.toWxErr.Error = some (.wx tok.ErrCode tok.ErrMsg) ∧
    getAccessTokenFromNet W st
      = (none,
        { st with
          accessToken := some
            { tok with ExpiresIn := wrapInt64 (W.clock st.clockReads + tok.ExpiresIn - 5) }
          requests := st.requests + 1
          clockReads := st.clockReads + 1 }) := by
  have h0 : tok.ErrCode ≠ 0 := by omega
  have hpos : ¬ tok.ErrCode > 0 := by omega
  constructor
  · simp [WxErr.Error, h0]
  · simp [getAccessTokenFromNet, hg, hpos]

/-- C10, witness: the reply `errcode = -1`, "system busy", overwrites a valid credential
with an empty token that expired five seconds ago. -/
theorem getAccessTokenFromNet_negative_errcode_witness :
    getAccessTokenFromNet
        ⟨fun _ => .decoded
          { ErrCode := -1, ErrMsg := ascii "system busy", AccessToken := [], ExpiresIn := 0 },
          fun _ => 100⟩
        ⟨some { ErrCode := 0, ErrMsg := [], AccessToken := ascii "tok", ExpiresIn := 7000 },
          0, 0, 0⟩
      = (none,
        ⟨some
            { ErrCode := -1, ErrMsg := ascii "system busy", AccessToken := [], ExpiresIn := 95 },
          1, 1, 0⟩) :=
  (getAccessTokenFromNet_negative_errcode
    ⟨fun _ => .decoded
      { ErrCode := -1, ErrMsg := ascii "system busy", AccessToken := [], ExpiresIn := 0 },
      fun _ => 100⟩
    ⟨some { ErrCode := 0, ErrMsg := [], AccessToken := ascii "tok", ExpiresIn := 7000 },
      0, 0, 0⟩
    { ErrCode := -1, ErrMsg := ascii "system busy", AccessToken := [], ExpiresIn := 0 }
    rfl (by decide)).2

/-- The pad count of `pkcs7Pad` lies between 1 and the block size and completes the length
to a multiple of the block size. -/
theorem padlen_bounds (n bs : Nat) (h : 0 < bs) :
    1 ≤ bs - n % bs ∧ bs - n % bs ≤ bs ∧ (n + (bs - n % bs)) % bs = 0 := by
  have hlt := Nat.mod_lt n h
  refine ⟨by omega, by omega, ?_⟩
  have e : n + (bs - n % bs) = bs * (n / bs + 1) := by
    have := Nat.div_add_mod n bs
    rw [Nat.mul_add, Nat.mul_one]
    omega
  rw [e, Nat.mul_mod_right]

/-- C14: PKCS#7 padding shape. For every byte string `msg` and every `blockSize` in
`[2, 255]`, `pkcs7Pad(msg, blockSize)` is `msg` followed by `padlen` bytes each of value
`padlen`, where `padlen = blockSize - len(msg) % blockSize`; `padlen` lies between 1 and
`blockSize` (a full block when `len(msg)` is already a multiple of `blockSize`), and the
length of the result is a multiple of `blockSize`. -/
theorem pkcs7Pad_shape (msg : List Nat) (blockSize : Nat) (h2 : 2 ≤ blockSize)
    (h255 : blockSize ≤ 255) :
    pkcs7Pad msg blockSize
        = .ok (msg ++ List.replicate (blockSize - msg.length % blockSize)
            (blockSize - msg.length % blockSize)) ∧
      1 ≤ blockSize - msg.length % blockSize ∧
      blockSize - msg.length % blockSize ≤ blockSize ∧
      (msg.length % blockSize = 0 → blockSize - msg.length % blockSize = blockSize) ∧
      (msg ++ List.replicate (blockSize - msg.length % blockSize)
          (blockSize - msg.length % blockSize)).length % blockSize = 0 := by
  obtain ⟨hb1, hb2, hb3⟩ := padlen_bounds msg.length blockSize (by omega)
  refine ⟨?_, hb1, hb2, ?_, ?_⟩
  · have hmod : (blockSize - msg.length % blockSize) % 256
        = blockSize - msg.length % blockSize := Nat.mod_eq_of_lt (by omega)
    simp only [pkcs7Pad, hmod]
    rw [if_neg (by omega)]
  · intro h0; rw [h0, Nat.sub_zero]
  · rw [List.length_append, List.length_replicate]; exact hb3

/-- C14, witness: a 20-byte string padded to block size 32 gains twelve bytes of value 12. -/
theorem pkcs7Pad_shape_witness :
    pkcs7Pad (List.replicate 20 7) 32
        = .ok (List.replicate 20 7 ++ List.replicate (32 - (List.replicate 20 7).length % 32)
            (32 - (List.replicate 20 7).length % 32)) ∧
      1 ≤ 32 - (List.replicate 20 7).length % 32 ∧
      32 - (List.replicate 20 7).length % 32 ≤ 32 ∧
      ((List.replicate 20 7).length % 32 = 0 → 32 - (List.replicate 20 7).length % 32 = 32) ∧
      (List.replicate 20 7 ++ List.replicate (32 - (List.replicate 20 7).length % 32)
          (32 - (List.replicate 20 7).length % 32)).length % 32 = 0 :=
  pkcs7Pad_shape (List.replicate 20 7) 32 (by decide) (by decide)

/-- Unpadding a slice that ends in `p` bytes of value `p`, whatever lies behind it in the
backing array, strips exactly those bytes. -/
theorem pkcs7UnPad_padded_cap (F extra : List Nat) (p : Nat) (hp : 1 ≤ p) :
    pkcs7UnPad ⟨F ++ List.replicate p p ++ extra, F.length + p⟩
      = .ok ⟨F ++ List.replicate p p ++ extra, F.length⟩ := by
  have hget : (F ++ List.replicate p p ++ extra).getD (F.length + p - 1) 0 = p := by
    rw [List.getD_eq_getElem?_getD,
      List.getElem?_append_left (by rw [List.length_append, List.length_replicate]; omega),
      List.getElem?_append_right (by omega), List.getElem?_replicate]
    have : F.length + p - 1 - F.length < p := by omega
    simp [this]
  simp only [pkcs7UnPad, hget]
  rw [if_neg (by omega), if_neg (by omega)]
  simp

/-- C18: padding round trip. For every byte string `msg` and every `blockSize` in `[2, 255]`,
`pkcs7Pad` returns a padded string, and `pkcs7UnPad` applied to a slice holding it (whatever
spare capacity the slice has) returns a slice whose elements are exactly `msg`. -/
theorem pkcs7UnPad_pkcs7Pad (msg extra : List Nat) (blockSize : Nat) (h2 : 2 ≤ blockSize)
    (h255 : blockSize ≤ 255) :
    ∃ padded out, pkcs7Pad msg blockSize = .ok padded ∧
      pkcs7UnPad ⟨padded ++ extra, padded.length⟩ = .ok out ∧ out.bytes = msg := by
  obtain ⟨hb1, hb2, _⟩ := padlen_bounds msg.length blockSize (by omega)
  have hmod : (blockSize - msg.length % blockSize) % 256
      = blockSize - msg.length % blockSize := Nat.mod_eq_of_lt (by omega)
  refine ⟨msg ++ List.replicate (blockSize - msg.length % blockSize)
    (blockSize - msg.length % blockSize),
    ⟨msg ++ List.replicate (blockSize - msg.length % blockSize)
      (blockSize - msg.length % blockSize) ++ extra, msg.length⟩, ?_, ?_, ?_⟩
  · simp only [pkcs7Pad, hmod]
    rw [if_neg (by omega)]
  · rw [List.length_append, List.length_replicate]
    exact pkcs7UnPad_padded_cap msg extra _ hb1
  · simp only [Slice.bytes]
    rw [List.append_assoc, List.take_left' rfl]

/-- C18, witness: "hello" padded to block size 16 and unpadded again. -/
theorem pkcs7UnPad_pkcs7Pad_witness :
    ∃ padded out, pkcs7Pad (ascii "hello") 16 = .ok padded ∧
      pkcs7UnPad ⟨padded ++ [], padded.length⟩ = .ok out ∧ out.bytes = ascii "hello" :=
  pkcs7UnPad_pkcs7Pad (ascii "hello") [] 16 (by decide) (by decide)

/-- C15, counterexample: a trailing byte 0 is not treated as a padding error, the buffer is
returned whole; a trailing byte 17, above the block size, strips 17 bytes without error; a
16-byte ciphertext that decrypts to a block ending in 0 comes back from `aesDecrypt` as
data; and a trailing byte above the buffer length fails with an out-of-range slice. -/
theorem pkcs7UnPad_counterexample :
    pkcs7UnPad ⟨[1, 2, 3, 0], 4⟩ = .ok ⟨[1, 2, 3, 0], 4⟩ ∧
    pkcs7UnPad ⟨List.replicate 32 17, 32⟩ = .ok ⟨List.replicate 32 17, 15⟩ ∧
    aesDecrypt toyCrypto (some (List.replicate 16 0)) (16 :: List.replicate 15 0) (List.range 16)
      = .ok ⟨List.replicate 15 240 ++ [0], 16⟩ ∧
    pkcs7UnPad ⟨[1, 2, 3, 200], 4⟩ = .panicked "slice bounds out of range" := by
  decide

/-- C15, amended: `pkcs7UnPad` does not validate the pad count and has no padding error. For
every non-empty buffer whose trailing byte value `padlen` does not exceed the buffer length,
it strips exactly `padlen` bytes and returns the rest, also when `padlen` is 0 (nothing is
stripped) or greater than the block size; and `aesDecrypt`, on a ciphertext of whole blocks
under a valid key, returns what `pkcs7UnPad` makes of the CBC decryption. -/
theorem pkcs7UnPad_strips (P : Crypto) (msg : Slice) (hlen : 0 < msg.len)
    (hpad : msg.arr.getD (msg.len - 1) 0 ≤ msg.len) :
    pkcs7UnPad msg = .ok ⟨msg.arr, msg.len - msg.arr.getD (msg.len - 1) 0⟩ ∧
    ∀ (v src key : List Nat), validKeySize key.length = true → src.length % 16 = 0 →
      aesDecrypt P (some v) src key
        = pkcs7UnPad ⟨cbcDecryptBlocks P key (src.length / 16) v src, src.length⟩ := by
  constructor
  · simp only [pkcs7UnPad]
    rw [if_neg (by omega), if_neg (by omega)]
  · intro v src key hk hsrc
    simp only [aesDecrypt, hk]
    rw [if_neg (by simp), if_neg (by omega)]

/-- C15, witness: the buffer `[1, 2, 3, 0]` is returned whole. -/
theorem pkcs7UnPad_strips_witness :
    pkcs7UnPad ⟨[1, 2, 3, 0], 4⟩ = .ok ⟨[1, 2, 3, 0], 4 - [1, 2, 3, 0].getD (4 - 1) 0⟩ :=
  (pkcs7UnPad_strips toyCrypto ⟨[1, 2, 3, 0], 4⟩ (by decide) (by decide)).1

/-- C16, counterexample: under a 32-byte key the empty plaintext is padded with 32 bytes,
more than the cipher block size 16, and under a 24-byte key the padded input of 24 bytes is
not a whole number of cipher blocks and the encryption panics. -/
theorem aesEncrypt_counterexample :
    pkcs7Pad [] (List.range 32).length = .ok (List.replicate 32 32) ∧
    (∃ ct, aesEncrypt toyCrypto (some (List.replicate 16 0)) [] (List.range 32) = .ok ct ∧
      ct.length = 32) ∧
    aesEncrypt toyCrypto (some (List.replicate 16 0)) [] (List.range 24)
      = .panicked "crypto/cipher: input not full blocks" := by
  refine ⟨by decide, ⟨_, rfl, by decide⟩, by decide⟩

/-- C16, amended: the envelope is padded to the key length. For every AES key of 16 or 32
bytes and every plaintext, `aesEncrypt` applies PKCS#7 padding with block size `len(key)`,
so it appends `p` bytes of value `p` with `1 ≤ p ≤ len(key)` (up to 32 under a 32-byte key);
the padded input is a whole number of 16-byte cipher blocks, and encryption succeeds with an
output as long as the padded input, a multiple of 16. -/
theorem aesEncrypt_padding (P : Crypto) (hP : P.Lawful) (key : List Nat)
    (hk : key.length = 16 ∨ key.length = 32) (iv src : List Nat) (hiv : IsBlock iv)
    (hsrc : IsBytes src) :
    ∃ p ct, 1 ≤ p ∧ p ≤ key.length ∧
      pkcs7Pad src key.length = .ok (src ++ List.replicate p p) ∧
      (src.length + p) % 16 = 0 ∧
      aesEncrypt P (some iv) src key = .ok ct ∧ ct.length = src.length + p := by
  have hv := validKeySize_of _ hk
  have hb : 1 ≤ key.length - src.length % key.length ∧
      key.length - src.length % key.length ≤ key.length ∧
      (src.length + (key.length - src.length % key.length)) % 16 = 0 := by
    rcases hk with h | h <;> rw [h] <;> omega
  have hmod : (key.length - src.length % key.length) % 256
      = key.length - src.length % key.length := by
    rcases hk with h | h <;> rw [h] <;> omega
  have hbs : ¬ (key.length < 2 ∨ key.length ≥ 256) := by
    rcases hk with h | h <;> rw [h] <;> omega
  have hpad : pkcs7Pad src key.length
      = .ok (src ++ List.replicate (key.length - src.length % key.length)
          (key.length - src.length % key.length)) := by
    simp only [pkcs7Pad, hmod]
    rw [if_neg hbs]
  have hpl : (src ++ List.replicate (key.length - src.length % key.length)
      (key.length - src.length % key.length)).length
      = 16 * ((src.length + (key.length - src.length % key.length)) / 16) := by
    rw [List.length_append, List.length_replicate]
    omega
  have hspec := cbcEncryptBlocks_spec P hP key hv _ iv _ hiv hpl
    (isBytes_append.mpr ⟨hsrc, isBytes_replicate _ _ (by omega)⟩)
  refine ⟨key.length - src.length % key.length,
    cbcEncryptBlocks P key ((src.length + (key.length - src.length % key.length)) / 16) iv
      (src ++ List.replicate (key.length - src.length % key.length)
        (key.length - src.length % key.length)),
    hb.1, hb.2.1, hpad, hb.2.2, ?_, ?_⟩
  · simp only [aesEncrypt, hpad, hv]
    rw [if_neg (by simp), if_neg (by
      rw [List.length_append, List.length_replicate]; omega)]
    rw [List.length_append, List.length_replicate]
  · rw [hspec.1]; omega

/-- C16, witness: a 20-byte plaintext under the 32-byte key of the example server. -/
theorem aesEncrypt_padding_witness :
    ∃ p ct, 1 ≤ p ∧ p ≤ (List.range 32).length ∧
      pkcs7Pad (List.replicate 20 7) (List.range 32).length
        = .ok (List.replicate 20 7 ++ List.replicate p p) ∧
      ((List.replicate 20 7).length + p) % 16 = 0 ∧
      aesEncrypt toyCrypto (some (List.replicate 16 0)) (List.replicate 20 7) (List.range 32)
        = .ok ct ∧
      ct.length = (List.replicate 20 7).length + p :=
  aesEncrypt_padding toyCrypto toyCrypto_lawful (List.range 32) (Or.inr rfl)
    (List.replicate 16 0) (List.replicate 20 7) (isBlock_replicate 0 (by norm_num))
    (isBytes_replicate _ _ (by norm_num))

theorem b64Val_lt (c x : Nat) (h : b64Val c = some x) : x < 64 := by
  unfold b64Val at h
  split_ifs at h <;> (cases h; omega)

/-- Every output of the base64 decoder is a byte string. -/
theorem base64DecodeQuanta_isBytes : ∀ (s out : List Nat),
    base64DecodeQuanta s = some out → IsBytes out
  | [], out, h => by
    simp only [base64DecodeQuanta, Option.some.injEq] at h
    subst h; intro x hx; simp at hx
  | [_], _, h => by simp [base64DecodeQuanta] at h
  | [_, _], _, h => by simp [base64DecodeQuanta] at h
  | [_, _, _], _, h => by simp [base64DecodeQuanta] at h
  | a :: b :: c :: d :: rest, out, h => by
    unfold base64DecodeQuanta at h
    split_ifs at h with h1 h2
    · split at h
      · rename_i x y hx hy
        have := b64Val_lt _ _ hx
        have := b64Val_lt _ _ hy
        cases h
        intro z hz
        simp only [List.mem_singleton] at hz
        omega
      · cases h
    · split at h
      · rename_i x y z hx hy hz
        have := b64Val_lt _ _ hx
        have := b64Val_lt _ _ hy
        have := b64Val_lt _ _ hz
        cases h
        intro w hw
        simp only [List.mem_cons, List.mem_singleton, List.not_mem_nil, or_false] at hw
        rcases hw with rfl | rfl <;> omega
      · cases h
    · split at h
      · rename_i x y z w t hx hy hz hw ht
        have := b64Val_lt _ _ hx
        have := b64Val_lt _ _ hy
        have := b64Val_lt _ _ hz
        have := b64Val_lt _ _ hw
        have ih := base64DecodeQuanta_isBytes rest t ht
        cases h
        intro v hv
        simp only [List.mem_cons] at hv
        rcases hv with rfl | rfl | rfl | hv
        · omega
        · omega
        · omega
        · exact ih v hv
      · cases h

theorem base64Decode_isBytes (s out : List Nat) (h : base64Decode s = some out) :
    IsBytes out :=
  base64DecodeQuanta_isBytes _ out h

theorem drop_prefix16 (g T : List Nat) (k : Nat) (hg : g.length = 16) (hk : 16 ≤ k) :
    (g ++ T).drop k = T.drop (k - 16) := by
  rw [List.drop_append_eq_append_drop, List.drop_eq_nil_of_le (by omega), hg, List.nil_append]

/-- The frame check reads nothing of the first 16 bytes of the backing array. -/
theorem decryptMsgFrame_prefix (appId g1 g2 T : List Nat) (l : Nat) (h1 : g1.length = 16)
    (h2 : g2.length = 16) :
    decryptMsgFrame appId ⟨g1 ++ T, l⟩ = decryptMsgFrame appId ⟨g2 ++ T, l⟩ := by
  have hfl : frameLength ⟨g1 ++ T, l⟩ = frameLength ⟨g2 ++ T, l⟩ := by
    simp only [frameLength]
    rw [List.drop_left' h1, List.drop_left' h2]
  have hbytes : ∀ k, 16 ≤ k →
      (Slice.bytes ⟨g1 ++ T, l⟩).drop k = (Slice.bytes ⟨g2 ++ T, l⟩).drop k := by
    intro k hk
    simp only [Slice.bytes]
    rw [List.drop_take, List.drop_take, drop_prefix16 g1 T k h1 hk, drop_prefix16 g2 T k h2 hk]
  have harr : ∀ k, ((g1 ++ T).take k).drop 20 = ((g2 ++ T).take k).drop 20 := by
    intro k
    rw [List.drop_take, List.drop_take, drop_prefix16 g1 T 20 h1 (by norm_num),
      drop_prefix16 g2 T 20 h2 (by norm_num)]
  unfold decryptMsgFrame
  simp only [Slice.cap, List.length_append, h1, h2, hfl]
  rw [hbytes _ (by omega), harr]

/-- CBC decryption of at least one block under two IVs: the results differ only in their
first 16 bytes. -/
theorem cbcDecryptBlocks_two_ivs (P : Crypto) (hP : P.Lawful) (key : List Nat)
    (hk : validKeySize key.length = true) (n : Nat) (iv1 iv2 ct : List Nat) (h1 : IsBlock iv1)
    (h2 : IsBlock iv2) (hlen : 16 ≤ ct.length) (hct : IsBytes ct) :
    ∃ g1 g2 T, g1.length = 16 ∧ g2.length = 16 ∧
      cbcDecryptBlocks P key (n + 1) iv1 ct = g1 ++ T ∧
      cbcDecryptBlocks P key (n + 1) iv2 ct = g2 ++ T := by
  have hd := hP.decrypt_block key _ hk (isBlock_take hlen hct)
  exact ⟨_, _, _, (isBlock_xor hd h1).1, (isBlock_xor hd h2).1, rfl, rfl⟩

/-- C17: decryption is deterministic despite its random IV. For every lawful cipher, every
key and every ciphertext of at least two 16-byte blocks: under a key the cipher accepts the
CBC decryptions under any two IVs agree on every byte from offset 16 on; whenever
`aesDecrypt` returns a buffer under one IV it returns under the other a buffer of the same
length with the same bytes from offset 16 on (the same padding is stripped); and
`decryptMsg` returns the same plaintext, the same error or the same panic under both. -/
theorem decryptMsg_iv_independent (P : Crypto) (hP : P.Lawful) (s : server)
    (msg ct : List Nat) (n : Nat) (iv1 iv2 : List Nat)
    (hdec : base64Decode msg = some ct) (hlen : ct.length = 16 * (n + 2))
    (h1 : IsBlock iv1) (h2 : IsBlock iv2) :
    (validKeySize s.aesKey.length = true →
      (cbcDecryptBlocks P s.aesKey (n + 2) iv1 ct).drop 16
        = (cbcDecryptBlocks P s.aesKey (n + 2) iv2 ct).drop 16) ∧
    (∀ b1, aesDecrypt P (some iv1) ct s.aesKey = .ok b1 →
      ∃ b2, aesDecrypt P (some iv2) ct s.aesKey = .ok b2 ∧ b2.len = b1.len ∧
        b2.arr.drop 16 = b1.arr.drop 16) ∧
    decryptMsg P s (some iv1) msg = decryptMsg P s (some iv2) msg := by
  have hct : IsBytes ct := base64Decode_isBytes msg ct hdec
  cases hk : validKeySize s.aesKey.length with
  | false =>
    refine ⟨(fun h => by cases h), ?_, ?_⟩
    · intro b1 hb1
      simp [aesDecrypt, hk] at hb1
    · simp only [decryptMsg, hdec, aesDecrypt, hk, if_true]
  | true =>
    obtain ⟨g1, g2, T, hg1, hg2, e1, e2⟩ :=
      cbcDecryptBlocks_two_ivs P hP s.aesKey hk (n + 1) iv1 iv2 ct h1 h2 (by omega) hct
    have hlast : ∀ g : List Nat, g.length = 16 →
        (g ++ T).getD (ct.length - 1) 0 = T.getD (ct.length - 1 - 16) 0 := by
      intro g hg
      rw [List.getD_eq_getElem?_getD, List.getD_eq_getElem?_getD,
        List.getElem?_append_right (by omega), hg]
    have hdiv : ct.length / 16 = n + 2 := by omega
    have ha : ∀ (iv g : List Nat), g.length = 16 →
        cbcDecryptBlocks P s.aesKey (n + 2) iv ct = g ++ T →
        aesDecrypt P (some iv) ct s.aesKey
          = if ct.length < T.getD (ct.length - 1 - 16) 0 then
              .panicked "slice bounds out of range"
            else .ok ⟨g ++ T, ct.length - T.getD (ct.length - 1 - 16) 0⟩ := by
      intro iv g hg e
      simp only [aesDecrypt, hk, hdiv, e, pkcs7UnPad, hlast g hg]
      rw [if_neg (by simp), if_neg (by omega), if_neg (by omega)]
    have ha1 := ha iv1 g1 hg1 e1
    have ha2 := ha iv2 g2 hg2 e2
    refine ⟨(fun _ => ?_), ?_, ?_⟩
    · rw [e1, e2, List.drop_left' hg1, List.drop_left' hg2]
    · intro b1 hb1
      rw [ha1] at hb1
      rw [ha2]
      split_ifs at hb1 ⊢ with hp
      cases Res.ok.inj hb1
      exact ⟨_, rfl, rfl, by rw [List.drop_left' hg1, List.drop_left' hg2]⟩
    · simp only [decryptMsg, hdec, ha1, ha2]
      split_ifs with hp
      · rfl
      · exact decryptMsgFrame_prefix s.appId g1 g2 T _ hg1 hg2

/-- C17, witness: the envelope of "hello" for the example server decrypts to the same
result under the IVs `3, 3, ...` and `9, 9, ...`. -/
theorem decryptMsg_iv_independent_witness :
    decryptMsg toyCrypto exampleServer (some (List.replicate 16 3))
        (ascii "hoWEg4KBWVhXVlVUU1JRUHGFgYGFTUFYVFUECqakpaY=")
      = decryptMsg toyCrypto exampleServer (some (List.replicate 16 9))
        (ascii "hoWEg4KBWVhXVlVUU1JRUHGFgYGFTUFYVFUECqakpaY=") :=
  (decryptMsg_iv_independent toyCrypto toyCrypto_lawful exampleServer
    (ascii "hoWEg4KBWVhXVlVUU1JRUHGFgYGFTUFYVFUECqakpaY=")
    [134, 133, 132, 131, 130, 129, 89, 88, 87, 86, 85, 84, 83, 82, 81, 80, 113, 133, 129, 129,
      133, 77, 65, 88, 84, 85, 4, 10, 166, 164, 165, 166]
    0 (List.replicate 16 3) (List.replicate 16 9) (by decide) (by decide)
    (isBlock_replicate 3 (by norm_num)) (isBlock_replicate 9 (by norm_num))).2.2

/-- The end of `Reply` leaves `hasReply` alone. -/
theorem Reply_send_hasReply (X : XmlEncoder) (c : ReplyContext) (resp : RespValue) :
    (context.Reply.send X c resp).2.hasReply = c.hasReply := rfl

/-- C13: `Reply` is single-use. For every context and whatever the first call does (nil
`Resp`, a returned error, a panic of the encryption), the context it leaves has `hasReply`
set; and on every context with `hasReply` set, a call of `Reply` returns the duplicate-call
error and leaves the context exactly as it was: nothing is written to the response writer,
no encryption is performed, `Resp` and `hasReply` are unchanged. Hence every later call on
the same context behaves so. -/
theorem Reply_single_use (P : Crypto) (X : XmlEncoder) (s : server) (intn : Nat → Nat)
    (iv : Option (List Nat)) (c : ReplyContext) :
    (context.Reply P X s intn iv c).2.hasReply = true ∧
    (∀ (intn2 : Nat → Nat) (iv2 : Option (List Nat)) (c2 : ReplyContext),
      c2.hasReply = true →
        context.Reply P X s intn2 iv2 c2 = (.ok (some duplicateReply), c2)) ∧
    ∀ (intn2 : Nat → Nat) (iv2 : Option (List Nat)),
      context.Reply P X s intn2 iv2 (context.Reply P X s intn iv c).2
        = (.ok (some duplicateReply), (context.Reply P X s intn iv c).2) := by
  have hset : (context.Reply P X s intn iv c).2.hasReply = true := by
    unfold context.Reply
    by_cases h : c.hasReply = true
    · rw [if_pos h]; exact h
    · rw [if_neg h]
      simp only
      split
      · rfl
      · split
        · split
          · rfl
          · rfl
          · split
            · rfl
            · rfl
            · rfl
        · rfl
  have hdup : ∀ (intn2 : Nat → Nat) (iv2 : Option (List Nat)) (c2 : ReplyContext),
      c2.hasReply = true →
        context.Reply P X s intn2 iv2 c2 = (.ok (some duplicateReply), c2) := by
    intro intn2 iv2 c2 h2
    unfold context.Reply
    rw [if_pos h2]
  exact ⟨hset, hdup, fun intn2 iv2 => hdup intn2 iv2 _ hset⟩

/-- C13, witness: on the example context the second call of `Reply` returns the
duplicate-call error and changes nothing. -/
theorem Reply_single_use_witness :
    context.Reply toyCrypto toyXml exampleServer (fun i => i) (some (List.replicate 16 0))
        (context.Reply toyCrypto toyXml exampleServer (fun i => i)
          (some (List.replicate 16 0)) exampleReply).2
      = (.ok (some duplicateReply),
        (context.Reply toyCrypto toyXml exampleServer (fun i => i)
          (some (List.replicate 16 0)) exampleReply).2) :=
  (Reply_single_use toyCrypto toyXml exampleServer (fun i => i) (some (List.replicate 16 0))
    exampleReply).2.2 (fun i => i) (some (List.replicate 16 0))

theorem encodeRune_length (r : Nat) : 1 ≤ (encodeRune r).length := by
  unfold encodeRune
  split_ifs <;> simp

/-- Decoding the encoding of a scalar value, whatever follows it, gives the value back and
the width of its encoding. -/
theorem decodeRune_encodeRune (r : Nat) (s : List Nat) (h : isScalar r = true) :
    decodeRune (encodeRune r ++ s) = (r, (encodeRune r).length) := by
  have hs : r < 0xD800 ∨ (0xE000 ≤ r ∧ r < 0x110000) := by
    simpa [isScalar] using h
  unfold encodeRune
  by_cases h1 : r < 0x80
  · rw [if_pos h1]
    simp only [List.cons_append, List.nil_append, decodeRune, if_pos h1, List.length_singleton]
  · rw [if_neg h1]
    by_cases h2 : r < 0x800
    · rw [if_pos h2]
      simp only [List.cons_append, List.nil_append, decodeRune]
      rw [if_neg (by omega), if_pos (by omega), if_pos (by omega)]
      simp only [List.length_cons, List.length_nil, Prod.mk.injEq, and_true]
      omega
    · rw [if_neg h2, if_neg (by omega)]
      by_cases h3 : r < 0x10000
      · rw [if_pos h3]
        simp only [List.cons_append, List.nil_append, decodeRune]
        rw [if_neg (by omega), if_neg (by omega), if_pos (by omega),
          if_pos (by split_ifs <;> omega)]
        simp only [List.length_cons, List.length_nil, Prod.mk.injEq, and_true]
        omega
      · rw [if_neg h3, if_pos (by omega)]
        simp only [List.cons_append, List.nil_append, decodeRune]
        rw [if_neg (by omega), if_neg (by omega), if_neg (by omega), if_pos (by omega),
          if_pos (by split_ifs <;> omega)]
        simp only [List.length_cons, List.length_nil, Prod.mk.injEq, and_true]
        omega

theorem stringToRunes_loop_succ (fuel : Nat) (s : List Nat) (hs : s ≠ []) :
    stringToRunes.loop (fuel + 1) s
      = (decodeRune s).1 :: stringToRunes.loop fuel (s.drop (decodeRune s).2) := by
  cases s with
  | nil => exact absurd rfl hs
  | cons b t => rfl

theorem runesToString_cons (r : Nat) (rs : List Nat) :
    runesToString (r :: rs) = encodeRune r ++ runesToString rs := by
  simp [runesToString]

theorem runesToString_append (a b : List Nat) :
    runesToString (a ++ b) = runesToString a ++ runesToString b := by
  simp [runesToString]

theorem runesToString_length (rs : List Nat) : rs.length ≤ (runesToString rs).length := by
  induction rs with
  | nil => simp [runesToString]
  | cons r rs ih =>
    rw [runesToString_cons, List.length_append, List.length_cons]
    have := encodeRune_length r
    omega

/-- The decoding loop recovers a list of scalar values from its encoding, given one unit of
fuel per value. -/
theorem stringToRunes_loop_encode : ∀ (rs : List Nat) (fuel : Nat),
    (∀ r ∈ rs, isScalar r = true) → rs.length ≤ fuel →
      stringToRunes.loop fuel (runesToString rs) = rs
  | [], fuel, _, _ => by
    cases fuel <;> simp [runesToString, stringToRunes.loop]
  | r :: rs, 0, _, h => by simp at h
  | r :: rs, fuel + 1, hsc, h => by
    have hne : runesToString (r :: rs) ≠ [] := by
      intro e
      have := runesToString_length (r :: rs)
      rw [e] at this
      simp at this
    rw [stringToRunes_loop_succ _ _ hne, runesToString_cons,
      decodeRune_encodeRune r _ (hsc r (by simp))]
    simp only [List.drop_left]
    rw [stringToRunes_loop_encode rs fuel (fun x hx => hsc x (by simp [hx]))
      (by simpa using h)]

/-- The conversions `[]rune(s)` and `string(rs)` are inverse on texts: decoding the encoding
of a list of scalar values gives the list back. -/
theorem stringToRunes_runesToString (rs : List Nat) (h : ∀ r ∈ rs, isScalar r = true) :
    stringToRunes (runesToString rs) = rs :=
  stringToRunes_loop_encode rs _ h (runesToString_length rs)

theorem RuneCountInString_runesToString (rs : List Nat) (h : ∀ r ∈ rs, isScalar r = true) :
    RuneCountInString (runesToString rs) = rs.length := by
  rw [RuneCountInString, stringToRunes_runesToString rs h]

/-- On the encoding of a text, `substr` with `start ≤ end` returns the encoding of the code
points from `start` up to `end`. -/
theorem substr_runesToString (rs : List Nat) (h : ∀ r ∈ rs, isScalar r = true) (a b : Nat)
    (hab : a ≤ b) :
    substr (runesToString rs) (a : Int) (b : Int)
      = .ok (runesToString ((rs.take b).drop a)) := by
  unfold substr
  simp only [stringToRunes_runesToString rs h, Int.toNat_ofNat]
  by_cases h1 : a > rs.length
  · rw [if_pos (by omega)]
    rw [List.drop_eq_nil_of_le (by rw [List.length_take]; omega)]
    rfl
  · rw [if_neg (by omega)]
    by_cases h2 : b > rs.length
    · rw [if_pos (by omega), List.take_of_length_le (by omega)]
    · rw [if_neg (by omega), if_neg (by omega)]

/-- Cutting a list into `k` consecutive pieces of `m` elements and joining them again gives
its first `k * m` elements. -/
theorem pieces_flatten {α : Type} (l : List α) (m : Nat) : ∀ k : Nat,
    ((List.range k).map (fun i => (l.take ((i + 1) * m)).drop (i * m))).flatten
      = l.take (k * m)
  | 0 => by simp
  | k + 1 => by
    rw [List.range_succ, List.map_append, List.flatten_append, pieces_flatten l m k]
    simp only [List.map_cons, List.map_nil, List.flatten_cons, List.flatten_nil,
      List.append_nil]
    have e : l.take (k * m) = (l.take ((k + 1) * m)).take (k * m) := by
      rw [List.take_take, min_eq_left (Nat.mul_le_mul_right m (Nat.le_succ k))]
    rw [e, List.take_append_drop]

theorem runesToString_flatten (ls : List (List Nat)) :
    runesToString ls.flatten = (ls.map runesToString).flatten := by
  induction ls with
  | nil => rfl
  | cons a ls ih =>
    rw [List.flatten_cons, runesToString_append, ih, List.map_cons, List.flatten_cons]

theorem isScalar_slice (rs : List Nat) (h : ∀ r ∈ rs, isScalar r = true) (a b : Nat) :
    ∀ r ∈ (rs.take b).drop a, isScalar r = true :=
  fun r hr => h r (List.mem_of_mem_take (List.mem_of_mem_drop hr))

theorem substr_index (rs : List Nat) (h : ∀ r ∈ rs, isScalar r = true) (i : Nat) :
    substr (runesToString rs) (i * 500) ((i + 1) * 500)
      = .ok (runesToString ((rs.take ((i + 1) * 500)).drop (i * 500))) := by
  have e := substr_runesToString rs h (i * 500) ((i + 1) * 500) (by omega)
  push_cast at e
  exact e

/-- C19: chunking loses nothing. For every text, of more than 500 code points or not, given
by its UTF-8 encoding `msg`, the calls `substr(msg, i*500, (i+1)*500)` for `i = 0 .. parts-1` that
`SendText` makes all return a chunk; each chunk holds at most 500 code points, and the
chunks concatenated in order are exactly `msg`. -/
theorem SendText_chunks_lossless (rs : List Nat) (hsc : ∀ r ∈ rs, isScalar r = true) :
    ∃ cs : List (List Nat),
      cs.length = RuneCountInString (runesToString rs) / 500 + 1 ∧
      (∀ i : Nat, i < RuneCountInString (runesToString rs) / 500 + 1 →
        substr (runesToString rs) (i * 500) ((i + 1) * 500) = .ok (cs.getD i [])) ∧
      (∀ c ∈ cs, RuneCountInString c ≤ 500) ∧
      cs.flatten = runesToString rs := by
  rw [RuneCountInString_runesToString rs hsc]
  refine ⟨(List.range (rs.length / 500 + 1)).map
    (fun i => runesToString ((rs.take ((i + 1) * 500)).drop (i * 500))), ?_, ?_, ?_, ?_⟩
  · simp
  · intro i hi
    rw [substr_index rs hsc i, List.getD_eq_getElem?_getD, List.getElem?_map,
      List.getElem?_range hi]
    rfl
  · intro c hc
    simp only [List.mem_map, List.mem_range] at hc
    obtain ⟨i, _, rfl⟩ := hc
    rw [RuneCountInString_runesToString _ (isScalar_slice rs hsc _ _), List.length_drop,
      List.length_take]
    omega
  · have e : (List.range (rs.length / 500 + 1)).map
        (fun i => runesToString ((rs.take ((i + 1) * 500)).drop (i * 500)))
        = ((List.range (rs.length / 500 + 1)).map
          (fun i => (rs.take ((i + 1) * 500)).drop (i * 500))).map runesToString := by
      rw [List.map_map]; rfl
    rw [e, ← runesToString_flatten, pieces_flatten rs 500,
      List.take_of_length_le (by omega)]

/-- C19, witness: a text of 501 code points, among them two-, three- and four-byte ones. -/
theorem SendText_chunks_lossless_witness :
    ∃ cs : List (List Nat),
      cs.length
        = RuneCountInString (runesToString ([0xE9, 0x4F60, 0x1F600] ++ List.replicate 498 97))
          / 500 + 1 ∧
      (∀ i : Nat,
        i < RuneCountInString (runesToString ([0xE9, 0x4F60, 0x1F600] ++ List.replicate 498 97))
          / 500 + 1 →
        substr (runesToString ([0xE9, 0x4F60, 0x1F600] ++ List.replicate 498 97)) (i * 500)
          ((i + 1) * 500) = .ok (cs.getD i [])) ∧
      (∀ c ∈ cs, RuneCountInString c ≤ 500) ∧
      cs.flatten = runesToString ([0xE9, 0x4F60, 0x1F600] ++ List.replicate 498 97) :=
  SendText_chunks_lossless ([0xE9, 0x4F60, 0x1F600] ++ List.replicate 498 97)
    (List.forall_mem_append.mpr
      ⟨by decide, fun r h => by rw [(List.mem_replicate.mp h).2]; rfl⟩)

/-- When the retry loop ends without error after at least one round, a credential is
stored. -/
theorem retry_none_isSome (W : World) : ∀ (n : Nat) (e : Option GoErr) (st : TokenState),
    (getAccessToken.retry W n e st).1 = none →
      (n = 0 ∧ e = none) ∨ (getAccessToken.retry W n e st).2.accessToken.isSome = true
  | 0, e, st => fun h => Or.inl ⟨rfl, h⟩
  | n + 1, e, st => by
    intro h
    right
    cases hacc : (W.grant st.requests).accepted with
    | true =>
      obtain ⟨tok, _, hnet⟩ := getAccessTokenFromNet_accepted W st hacc
      rw [getAccessToken.retry, hnet]
      rfl
    | false =>
      obtain ⟨e1, hnet⟩ := getAccessTokenFromNet_rejected W st hacc
      have hret : getAccessToken.retry W (n + 1) e st
          = getAccessToken.retry W n (some e1)
              ⟨st.accessToken, st.requests + 1, st.clockReads, st.sleeps + 1⟩ := by
        rw [getAccessToken.retry, hnet]
      rw [hret] at h ⊢
      rcases retry_none_isSome W n (some e1) _ h with ⟨_, h2⟩ | h2
      · cases h2
      · exact h2

theorem refresh_ok (W : World) (st : TokenState) :
    ∃ tk, (getAccessToken.refresh W st).1 = .ok tk := by
  unfold getAccessToken.refresh
  cases hq : getAccessToken.retry W 3 none st with
  | mk e1 st1 =>
    cases e1 with
    | some e2 => exact ⟨[], rfl⟩
    | none =>
      have h := retry_none_isSome W 3 none st (by rw [hq])
      rw [hq] at h
      rcases h with ⟨h3, _⟩ | h
      · cases h3
      · simp only at h ⊢
        cases ha : st1.accessToken with
        | none => rw [ha] at h; cases h
        | some tok => exact ⟨tok.AccessToken, rfl⟩

/-- The call `getAccessToken` always returns a string: it neither fails nor panics. -/
theorem getAccessToken_ok (W : World) (st : TokenState) :
    ∃ tk, (getAccessToken W st).1 = .ok tk := by
  unfold getAccessToken
  cases st.accessToken with
  | none => exact refresh_ok W st
  | some tok =>
    simp only
    split_ifs
    · exact refresh_ok W _
    · exact ⟨_, rfl⟩

/-- The call `SendMsg` always returns the receipt of its POST and records the message. -/
theorem SendMsg_ok (W : Outside) (st : SendState) (v : Text) :
    ∃ tk tok1, SendMsg W st v
      = (.ok (W.post st.sent.length).toWxErr, ⟨tok1, st.sent ++ [(tk, v)]⟩) := by
  obtain ⟨tk, htk⟩ := getAccessToken_ok W.toWorld st.token
  unfold SendMsg
  cases hq : getAccessToken W.toWorld st.token with
  | mk r tok1 =>
    rw [hq] at htk
    simp only at htk
    subst htk
    exact ⟨tk, tok1, rfl⟩

/-- One round of the loop of `SendText` on the encoding of a text: the annotated chunk is
sent, and the loop goes on exactly when the receipt has `ErrCode` 0. -/
theorem SendText_loop_succ (W : Outside) (s : server) (to_ rs : List Nat)
    (hsc : ∀ r ∈ rs, isScalar r = true) (parts k i : Nat) (st : SendState) :
    ∃ tk tok1,
      SendText.loop W s to_ (runesToString rs) parts (k + 1) i st
        = if (W.post st.sent.length).toWxErr.ErrCode ≠ 0 then
            (.ok (some (W.post st.sent.length).toWxErr),
              ⟨tok1, st.sent ++ [(tk, s.NewText to_ [annotatedChunk rs parts i])]⟩)
          else
            SendText.loop W s to_ (runesToString rs) parts k (i + 1)
              ⟨tok1, st.sent ++ [(tk, s.NewText to_ [annotatedChunk rs parts i])]⟩ := by
  obtain ⟨tk, tok1, hsend⟩ := SendMsg_ok W st (s.NewText to_ [annotatedChunk rs parts i])
  refine ⟨tk, tok1, ?_⟩
  rw [SendText.loop, substr_index rs hsc i]
  simp only
  rw [show runesToString ((rs.take ((i + 1) * 500)).drop (i * 500)) = chunk rs i from rfl,
    show chunk rs i ++ ascii "\n(" ++ decimal (i + 1) ++ ascii "/" ++ decimal parts ++ ascii ")"
      = annotatedChunk rs parts i from rfl, hsend]

/-- The loop of `SendText`: chunks are sent in order; it runs through when every receipt has
`ErrCode` 0, and stops right after the first chunk whose receipt has not, returning that
receipt. -/
theorem SendText_loop_spec (W : Outside) (s : server) (to_ rs : List Nat)
    (hsc : ∀ r ∈ rs, isScalar r = true) (parts : Nat) : ∀ (k i : Nat) (st : SendState),
    ((∀ j, j < k → (W.post (st.sent.length + j)).toWxErr.ErrCode = 0) →
      ∃ st1, SendText.loop W s to_ (runesToString rs) parts k i st = (.ok none, st1) ∧
        st1.sent.map Prod.snd = st.sent.map Prod.snd
          ++ (List.range k).map (fun j => s.NewText to_ [annotatedChunk rs parts (i + j)])) ∧
    (∀ j0, j0 < k → (∀ j, j < j0 → (W.post (st.sent.length + j)).toWxErr.ErrCode = 0) →
      (W.post (st.sent.length + j0)).toWxErr.ErrCode ≠ 0 →
      ∃ st1, SendText.loop W s to_ (runesToString rs) parts k i st
          = (.ok (some (W.post (st.sent.length + j0)).toWxErr), st1) ∧
        st1.sent.map Prod.snd = st.sent.map Prod.snd
          ++ (List.range (j0 + 1)).map
            (fun j => s.NewText to_ [annotatedChunk rs parts (i + j)]))
  | 0, i, st => by
    refine ⟨fun _ => ⟨st, rfl, by simp⟩, fun j0 h => absurd h (Nat.not_lt_zero j0)⟩
  | k + 1, i, st => by
    obtain ⟨tk, tok1, hstep⟩ := SendText_loop_succ W s to_ rs hsc parts k i st
    have ih := SendText_loop_spec W s to_ rs hsc parts k (i + 1)
      ⟨tok1, st.sent ++ [(tk, s.NewText to_ [annotatedChunk rs parts i])]⟩
    have hlen : (st.sent ++ [(tk, s.NewText to_ [annotatedChunk rs parts i])]).length
        = st.sent.length + 1 := by simp
    simp only [hlen] at ih
    have hshift : ∀ n : Nat,
        (st.sent ++ [(tk, s.NewText to_ [annotatedChunk rs parts i])]).map Prod.snd
            ++ (List.range n).map
              (fun j => s.NewText to_ [annotatedChunk rs parts (i + 1 + j)])
          = st.sent.map Prod.snd
            ++ (List.range (n + 1)).map
              (fun j => s.NewText to_ [annotatedChunk rs parts (i + j)]) := by
      intro n
      rw [List.range_succ_eq_map, List.map_cons, List.map_map, List.map_append,
        List.append_assoc]
      simp only [List.map_cons, List.map_nil, List.singleton_append, Nat.add_zero,
        List.cons.injEq, true_and, List.append_cancel_left_eq]
      apply List.map_congr_left
      intro j _
      simp only [Function.comp, Nat.succ_eq_add_one]
      rw [show i + 1 + j = i + (j + 1) by omega]
    rw [hstep]
    constructor
    · intro hall
      have h0 := hall 0 (Nat.succ_pos k)
      rw [Nat.add_zero] at h0
      rw [if_neg (by simpa using h0)]
      obtain ⟨st1, h1, h2⟩ := ih.1 (fun j hj => by
        have := hall (j + 1) (by omega)
        rwa [show st.sent.length + (j + 1) = st.sent.length + 1 + j by omega] at this)
      exact ⟨st1, h1, by rw [h2, hshift]⟩
    · intro j0 hj0 hbefore hfail
      cases j0 with
      | zero =>
        rw [Nat.add_zero] at hfail ⊢
        rw [if_pos hfail]
        exact ⟨_, rfl, by simpa using hshift 0⟩
      | succ j0 =>
        have h0 := hbefore 0 (Nat.succ_pos j0)
        rw [Nat.add_zero] at h0
        rw [if_neg (by simpa using h0)]
        obtain ⟨st1, h1, h2⟩ := ih.2 j0 (by omega)
          (fun j hj => by
            have := hbefore (j + 1) (by omega)
            rwa [show st.sent.length + (j + 1) = st.sent.length + 1 + j by omega] at this)
          (by rwa [show st.sent.length + (j0 + 1) = st.sent.length + 1 + j0 by omega] at hfail)
        rw [show st.sent.length + 1 + j0 = st.sent.length + (j0 + 1) by omega] at h1
        exact ⟨st1, h1, by rw [h2, hshift]⟩

/-- When every receipt has `ErrCode` 0: a text of fewer than 500 code points goes out as one
unannotated message, and a text of `n ≥ 500` code points as `n / 500 + 1` annotated chunks,
after which `SendText` returns nil. -/
theorem SendText_all_delivered (W : Outside) (s : server) (st : SendState) (to_ rs : List Nat)
    (hsc : ∀ r ∈ rs, isScalar r = true)
    (hall : ∀ j, j < rs.length / 500 + 1 → (W.post (st.sent.length + j)).toWxErr.ErrCode = 0) :
    (rs.length < 500 →
      ∃ st1, SendText W s st to_ (runesToString rs)
          = (.ok (some (W.post st.sent.length).toWxErr), st1) ∧
        st1.sent.map Prod.snd = st.sent.map Prod.snd ++ [s.NewText to_ [runesToString rs]]) ∧
    (500 ≤ rs.length →
      ∃ st1, SendText W s st to_ (runesToString rs) = (.ok none, st1) ∧
        st1.sent.map Prod.snd = st.sent.map Prod.snd
          ++ (List.range (rs.length / 500 + 1)).map
            (fun j => s.NewText to_ [annotatedChunk rs (rs.length / 500 + 1) j])) := by
  constructor
  · intro hlt
    obtain ⟨tk, tok1, hsend⟩ := SendMsg_ok W st (s.NewText to_ [runesToString rs])
    refine ⟨⟨tok1, st.sent ++ [(tk, s.NewText to_ [runesToString rs])]⟩, ?_, by simp⟩
    simp only [SendText, RuneCountInString_runesToString rs hsc]
    rw [if_pos (by omega), hsend]
  · intro hge
    obtain ⟨st1, h1, h2⟩ :=
      (SendText_loop_spec W s to_ rs hsc (rs.length / 500 + 1) (rs.length / 500 + 1) 0 st).1 hall
    refine ⟨st1, ?_, ?_⟩
    · simp only [SendText, RuneCountInString_runesToString rs hsc]
      rw [if_neg (by omega), h1]
    · simpa only [Nat.zero_add] using h2

/-- C12: `SendText` aborts on the first failure. For every text of at least 500 code points
(the texts `SendText` sends in parts) and every sequence of send outcomes: if chunk `j0`
(counted from 0) is the first whose receipt has a non-zero `ErrCode`, `SendText` returns
exactly that receipt, and the messages it has sent are the annotated chunks `0 .. j0` in
this order, none of the later ones. -/
theorem SendText_aborts (W : Outside) (s : server) (st : SendState) (to_ rs : List Nat)
    (hsc : ∀ r ∈ rs, isScalar r = true) (hmulti : 500 ≤ rs.length) (j0 : Nat)
    (hj0 : j0 < rs.length / 500 + 1)
    (hbefore : ∀ j, j < j0 → (W.post (st.sent.length + j)).toWxErr.ErrCode = 0)
    (hfail : (W.post (st.sent.length + j0)).toWxErr.ErrCode ≠ 0) :
    ∃ st1, SendText W s st to_ (runesToString rs)
        = (.ok (some (W.post (st.sent.length + j0)).toWxErr), st1) ∧
      st1.sent.map Prod.snd = st.sent.map Prod.snd
        ++ (List.range (j0 + 1)).map
          (fun j => s.NewText to_ [annotatedChunk rs (rs.length / 500 + 1) j]) := by
  obtain ⟨st1, h1, h2⟩ :=
    (SendText_loop_spec W s to_ rs hsc (rs.length / 500 + 1) (rs.length / 500 + 1) 0 st).2
      j0 hj0 hbefore hfail
  refine ⟨st1, ?_, ?_⟩
  · simp only [SendText, RuneCountInString_runesToString rs hsc]
    rw [if_neg (by omega), h1]
  · simpa only [Nat.zero_add] using h2

theorem isScalar_replicate (n : Nat) : ∀ r ∈ List.replicate n 97, isScalar r = true :=
  fun r h => by rw [(List.mem_replicate.mp h).2]; rfl

/-- C12, witness: a text of 1200 code points whose second chunk is refused: the refusal is
returned and only the chunks `(1/3)` and `(2/3)` were sent. -/
theorem SendText_aborts_witness :
    ∃ st1, SendText secondRefused exampleServer freshSender (ascii "u1")
        (runesToString (List.replicate 1200 97))
        = (.ok (some (secondRefused.post (freshSender.sent.length + 1)).toWxErr), st1) ∧
      st1.sent.map Prod.snd = freshSender.sent.map Prod.snd
        ++ (List.range (1 + 1)).map
          (fun j => exampleServer.NewText (ascii "u1")
            [annotatedChunk (List.replicate 1200 97)
              ((List.replicate 1200 97).length / 500 + 1) j]) :=
  SendText_aborts secondRefused exampleServer freshSender (ascii "u1")
    (List.replicate 1200 97) (isScalar_replicate 1200)
    (by rw [List.length_replicate]; norm_num) 1
    (by rw [List.length_replicate]; norm_num)
    (by intro j hj; interval_cases j; decide)
    (by decide)

theorem suffix_1_2 :
    ascii "\n(" ++ (decimal 1 ++ (ascii "/" ++ (decimal 2 ++ ascii ")"))) = ascii "\n(1/2)" := by
  decide

theorem suffix_2_2 :
    ascii "\n(" ++ (decimal 2 ++ (ascii "/" ++ (decimal 2 ++ ascii ")"))) = ascii "\n(2/2)" := by
  decide

/-- C11, the code at the failing input: a text of exactly 500 code points, which fits one
chunk, is sent in two messages when every send succeeds: the whole text annotated `(1/2)`
and an empty chunk annotated `(2/2)`. -/
theorem SendText_500 (W : Outside) (s : server) (st : SendState) (to_ rs : List Nat)
    (hsc : ∀ r ∈ rs, isScalar r = true) (hlen : rs.length = 500)
    (h0 : (W.post st.sent.length).toWxErr.ErrCode = 0)
    (h1 : (W.post (st.sent.length + 1)).toWxErr.ErrCode = 0) :
    ∃ st1, SendText W s st to_ (runesToString rs) = (.ok none, st1) ∧
      st1.sent.map Prod.snd = st.sent.map Prod.snd
        ++ [s.NewText to_ [runesToString rs ++ ascii "\n(1/2)"],
          s.NewText to_ [ascii "\n(2/2)"]] := by
  have hparts : rs.length / 500 + 1 = 2 := by omega
  have hall : ∀ j, j < rs.length / 500 + 1 →
      (W.post (st.sent.length + j)).toWxErr.ErrCode = 0 := by
    intro j hj
    rw [hparts] at hj
    interval_cases j
    · exact h0
    · exact h1
  obtain ⟨st1, e1, e2⟩ := (SendText_all_delivered W s st to_ rs hsc hall).2 (by omega)
  refine ⟨st1, e1, ?_⟩
  have hc0 : annotatedChunk rs 2 0 = runesToString rs ++ ascii "\n(1/2)" := by
    simp only [annotatedChunk, chunk, List.append_assoc]
    rw [suffix_1_2, List.take_of_length_le (by omega)]
    rfl
  have hc1 : annotatedChunk rs 2 1 = ascii "\n(2/2)" := by
    simp only [annotatedChunk, chunk, List.append_assoc]
    rw [suffix_2_2, List.drop_eq_nil_of_le (by rw [List.length_take]; omega)]
    rfl
  rw [e2, hparts]
  simp only [List.range_succ, List.range_zero, List.nil_append, List.map_append, List.map_cons,
    List.map_nil, List.cons_append, hc0, hc1]

/-- C11, witness: 500 letters `a`, every send succeeding. -/
theorem SendText_500_witness :
    ∃ st1, SendText allDelivered exampleServer freshSender (ascii "u1")
        (runesToString (List.replicate 500 97)) = (.ok none, st1) ∧
      st1.sent.map Prod.snd = freshSender.sent.map Prod.snd
        ++ [exampleServer.NewText (ascii "u1")
            [runesToString (List.replicate 500 97) ++ ascii "\n(1/2)"],
          exampleServer.NewText (ascii "u1") [ascii "\n(2/2)"]] :=
  SendText_500 allDelivered exampleServer freshSender (ascii "u1") (List.replicate 500 97)
    (isScalar_replicate 500) (List.length_replicate 500 97) (by decide) (by decide)

end Wecom
